import Mathlib

/-!
# Verification of the PyAuthServer replication core

A shallow embedding, in Lean 4, of the parts of the PyAuthServer networked
game framework that the specification's quantified claims are about:

* `AttrModel`    — `network/descriptors.py`, `Attribute.__set__`
* `SceneModel`   — `network_2/scene.py`, `Scene.add_replicable` / `Scene.contest_id`
* `HandshakeModel` — `network/streams/handshake.py`, `ServerHandshakeManager`
* `ChannelModel` — `network/streams/replication/channels.py`,
  `ServerReplicableChannel.get_attributes` and
  `ReplicableChannelBase.process_rpc_calls`
* `ConnModel`    — `network/connection.py`, sequence/ack bookkeeping
* `ReconModel`   — `game_system/replicables.py`, `PlayerPawnController`
  reconciliation (`client_correct_move`) and validation
  (`server_validate_last_move`)
* `FlagSerModel` — `network/flag_serialiser.py`, `FlagSerialiser.pack/unpack`

Python dictionaries are modelled as association lists with dict semantics
(assignment replaces in place, `pop` removes); Python numbers by `Int`/`ℚ`/`ℝ`
as appropriate.  Classes whose implementation is not part of the sources
(only imported there) are modelled from the specification and say so in
their doc comments.
-/

namespace PyDict

variable {κ : Type} [DecidableEq κ]

/-- Python dict assignment `m[k] = v`: replace in place when the key exists,
otherwise append (insertion order is preserved, as in CPython). -/
def set (m : List (κ × α)) (k : κ) (v : α) : List (κ × α) :=
  match m with
  | [] => [(k, v)]
  | (k2, v2) :: rest => if k2 = k then (k, v) :: rest else (k2, v2) :: set rest k v

/-- Python dict lookup `m[k]` / `m.get(k)`. -/
def get (m : List (κ × α)) (k : κ) : Option α :=
  match m with
  | [] => none
  | (k2, v2) :: rest => if k2 = k then some v2 else get rest k

/-- Python dict `m.pop(k)`: the map without key `k`. -/
def pop (m : List (κ × α)) (k : κ) : List (κ × α) :=
  match m with
  | [] => []
  | (k2, v2) :: rest => if k2 = k then rest else (k2, v2) :: pop rest k

/-- Key membership `k in m`. -/
def hasKey (m : List (κ × α)) (k : κ) : Bool :=
  (get m k).isSome

end PyDict

namespace AttrModel

/-- A Python runtime value, as far as `Attribute.__set__` needs to
distinguish values: integers, booleans, floats (idealised as rationals),
strings and `None`. -/
inductive PyVal : Type
  | int (n : Int)
  | bool (b : Bool)
  | float (q : ℚ)
  | str (s : String)
  | none
deriving DecidableEq

/-- Python types of the above values (`bool` is a subclass of `int`). -/
inductive PyType : Type
  | intT
  | boolT
  | floatT
  | strT
  | noneT
deriving DecidableEq

/-- Numeric view used by Python `==` across `int`, `bool` and `float`. -/
def PyVal.asNumber : PyVal → Option ℚ
  | .int n => some (n : ℚ)
  | .bool b => some (if b then 1 else 0)
  | .float q => some q
  | _ => Option.none

/-- Python `==` on these values: numbers compare by value across numeric
types (`1 == True == 1.0`), strings by content, `None` only to itself. -/
def pyEq (a b : PyVal) : Bool :=
  match a.asNumber, b.asNumber with
  | some x, some y => x == y
  | _, _ =>
    match a, b with
    | .str s, .str t => s == t
    | .none, .none => true
    | _, _ => false

/-- Python `isinstance(v, t)`; `bool` instances are also `int` instances. -/
def pyIsInstance (v : PyVal) (t : PyType) : Bool :=
  match v, t with
  | .int _, .intT => true
  | .bool _, .boolT => true
  | .bool _, .intT => true
  | .float _, .floatT => true
  | .str _, .strT => true
  | .none, .noneT => true
  | _, _ => false

/-- Per-instance storage interface for an attribute: current value and the
registered complaint (a static description), as mutated by
`Attribute.__set__`. -/
structure Storage : Type where
  value : PyVal
  complaint : Option Int
deriving DecidableEq

/-- `network/descriptors.py`, `Attribute.__set__`: early-return when the new
value compares equal to the stored one; otherwise register a complaint when
`complain` is set, then type-check (raising `TypeError`), then store.
`static_description` is passed in as `desc` (it is a hash-like digest defined
in `network/handler_interfaces.py`).  Returns the post-call storage and
`some "TypeError"` when the call raised. -/
def attrSet (desc : PyVal → Int) (complain : Bool) (ty : PyType)
    (st : Storage) (v : PyVal) : Storage × Option String :=
  if pyEq st.value v then (st, Option.none)
  else
    let st1 := if complain then { st with complaint := some (desc v) } else st
    if v ≠ PyVal.none ∧ ¬ pyIsInstance v ty then (st1, some "TypeError")
    else ({ st1 with value := v }, Option.none)

end AttrModel

namespace SceneModel

/-- A replicable of `network_2`: an opaque identity tag plus its current
unique id.  Modelled from the spec: `network_2/replicable.py` is not among
the sources; per §3 and §5 a replicable carries a scene-scoped unique id
which only the scene may reassign (`change_unique_id` sets it). -/
structure Replicable : Type where
  tag : Nat
  uniqueId : Nat
deriving DecidableEq

/-- Modelled from the spec: `UniqueIDPool` (from the missing
`network_2/factory.py`) holds the scene's free ids (§3: a unique-id pool of
255 ids); `take` removes and returns a free id. -/
structure UniqueIDPool : Type where
  available : List Nat
deriving DecidableEq

/-- `UniqueIDPool.take`: obtain a fresh id from the pool (`none` when the
pool is exhausted). -/
def UniqueIDPool.take (p : UniqueIDPool) : Option (Nat × UniqueIDPool) :=
  match p.available with
  | [] => Option.none
  | x :: rest => some (x, ⟨rest⟩)

/-- `network_2/scene.py`, `Scene`: ordered map id → replicable plus the
unique-id pool. -/
structure Scene : Type where
  replicables : List (Nat × Replicable)
  pool : UniqueIDPool
deriving DecidableEq

/-- `Scene.contest_id`: the contestant takes the contested id; the existing
replicable is re-associated under a fresh id taken from the pool. -/
def contestId (s : Scene) (uniqueId : Nat) (contestant existing : Replicable) :
    Option Scene :=
  let reps1 := PyDict.set s.replicables uniqueId contestant
  match s.pool.take with
  | Option.none => Option.none
  | some (freshId, pool2) =>
    let existing2 := { existing with uniqueId := freshId }
    some { replicables := PyDict.set reps1 freshId existing2, pool := pool2 }

/-- `Scene.add_replicable`: allocate an id from the pool when none is given;
construct the replicable; on an id collision run the contest, otherwise
store under the id.  (`none` models the pool being exhausted.) -/
def addReplicable (s : Scene) (tag : Nat) (uniqueId : Option Nat) :
    Option (Scene × Replicable) :=
  let allocated : Option (Nat × UniqueIDPool) :=
    match uniqueId with
    | some uid => some (uid, s.pool)
    | Option.none => s.pool.take
  match allocated with
  | Option.none => Option.none
  | some (uid, pool1) =>
    let s1 : Scene := { s with pool := pool1 }
    let replicable : Replicable := { tag := tag, uniqueId := uid }
    match PyDict.get s1.replicables uid with
    | some existing =>
      match contestId s1 uid replicable existing with
      | Option.none => Option.none
      | some s2 => some (s2, replicable)
    | Option.none =>
      some ({ s1 with replicables := PyDict.set s1.replicables uid replicable },
            replicable)

end SceneModel

namespace HandshakeModel

/-- Connection states from `network/enums.py` (`ConnectionStates`). -/
inductive ConnState : Type
  | initState
  | awaitingHandshake
  | receivedHandshake
  | connected
  | failed
  | disconnected
  | timedOut
deriving DecidableEq

/-- Observable state of `ServerHandshakeManager`
(`network/streams/handshake.py`): the connection state, the stored
handshake error, and instrumentation counters for the two side effects the
claim is about — calls to `Rules.pre_initialise` and handshake result
packets (`handshake_success` / `handshake_failed`) queued. -/
structure ServerManager : Type where
  state : ConnState
  handshakeError : Option String
  preInitialiseCalls : Nat
  resultPacketsSent : Nat
deriving DecidableEq

/-- Inbound events the server manager reacts to.  A `requestHandshake`
carries the outcome of `Rules.pre_initialise` (an external collaborator):
`none` when it returns normally, `some err` when it raises `NetworkError`. -/
inductive Event : Type
  | requestHandshake (ruleError : Option String)
  | requestDisconnect
deriving DecidableEq

/-- `ServerHandshakeManager.send_handshake_result`: send `handshake_failed`
and enter `failed` when an error is stored, else send `handshake_success`
and enter `connected`. -/
def sendHandshakeResult (m : ServerManager) : ServerManager :=
  if m.handshakeError.isSome then
    { m with state := ConnState.failed,
             resultPacketsSent := m.resultPacketsSent + 1 }
  else
    { m with state := ConnState.connected,
             resultPacketsSent := m.resultPacketsSent + 1 }

/-- `ServerHandshakeManager.receive_handshake_request`: ignored unless in
`awaiting_handshake`; otherwise invoke `Rules.pre_initialise` (recording an
error it raises), move to `received_handshake` and send the result. -/
def receiveHandshakeRequest (m : ServerManager) (ruleError : Option String) :
    ServerManager :=
  if m.state ≠ ConnState.awaitingHandshake then m
  else
    let m1 := { m with
      preInitialiseCalls := m.preInitialiseCalls + 1,
      handshakeError := if ruleError.isSome then ruleError else m.handshakeError }
    sendHandshakeResult { m1 with state := ConnState.receivedHandshake }

/-- `ServerHandshakeManager.receive_disconnect_request`. -/
def receiveDisconnectRequest (m : ServerManager) : ServerManager :=
  { m with state := ConnState.disconnected }

/-- Dispatch of an inbound event to the protocol listeners. -/
def serverStep (m : ServerManager) : Event → ServerManager
  | Event.requestHandshake r => receiveHandshakeRequest m r
  | Event.requestDisconnect => receiveDisconnectRequest m

/-- State after `ServerHandshakeManager.__init__` (which runs
`invoke_handshake`, entering `awaiting_handshake`; the `invoke_handshake`
packet is not a handshake result). -/
def initialServerManager : ServerManager :=
  { state := ConnState.awaitingHandshake, handshakeError := Option.none,
    preInitialiseCalls := 0, resultPacketsSent := 0 }

/-- Inductive invariant: in `awaiting_handshake` nothing has been sent yet,
and both effects happen at most once. -/
def serverInv (m : ServerManager) : Prop :=
  (m.state = ConnState.awaitingHandshake →
    m.preInitialiseCalls = 0 ∧ m.resultPacketsSent = 0) ∧
  m.preInitialiseCalls ≤ 1 ∧ m.resultPacketsSent ≤ 1

end HandshakeModel

namespace ChannelModel

variable {κ V D : Type} [DecidableEq κ] [DecidableEq D]

/-- Result of one `ServerReplicableChannel.get_attributes` call: the updated
`_last_replicated_descriptions` map, the `to_serialise` map passed to the
serialiser, and the returned payload (`none` exactly when nothing was added,
mirroring the `if to_serialise: ... else: data = None` tail of the source). -/
structure GAResult (κ V D : Type) : Type where
  lastDescriptions : List (κ × D)
  toSerialise : List (κ × V)
  data : Option (List Nat)

/-- The attribute loop of `ServerReplicableChannel.get_attributes`
(`network/streams/replication/channels.py`): for each name yielded by
`can_replicate`, fetch the stored value, compute its description and compare
with the last transmitted description; on a match skip, otherwise add the
value to `to_serialise` and remember the new description.  `none` models the
`KeyError` a name missing from the channel's maps would raise. -/
def getAttributesLoop (describe : κ → V → D) (values : List (κ × V)) :
    List κ → List (κ × D) → Option (List (κ × D) × List (κ × V))
  | [], lastDesc => some (lastDesc, [])
  | name :: rest, lastDesc =>
    match PyDict.get values name, PyDict.get lastDesc name with
    | some value, some lastDescription =>
      let newDescription := describe name value
      if newDescription = lastDescription then
        getAttributesLoop describe values rest lastDesc
      else
        match getAttributesLoop describe values rest
            (PyDict.set lastDesc name newDescription) with
        | some (finalDesc, toSer) => some (finalDesc, (name, value) :: toSer)
        | Option.none => Option.none
    | _, _ => Option.none

/-- `ServerReplicableChannel.get_attributes`: run the attribute loop, then
pack `to_serialise` when it is non-empty and return `None` otherwise. -/
def getAttributes (pack : List (κ × V) → List Nat) (describe : κ → V → D)
    (eligible : List κ) (values : List (κ × V)) (lastDesc : List (κ × D)) :
    Option (GAResult κ V D) :=
  match getAttributesLoop describe values eligible lastDesc with
  | some (finalDesc, toSer) =>
    some { lastDescriptions := finalDesc, toSerialise := toSer,
           data := if toSer.isEmpty then Option.none else some (pack toSer) }
  | Option.none => Option.none

/-- Whether an eligible attribute's current description differs from the
last transmitted one (the update condition of the loop above). -/
def descriptionChanged (describe : κ → V → D) (values : List (κ × V))
    (lastDesc : List (κ × D)) (name : κ) : Bool :=
  match PyDict.get values name, PyDict.get lastDesc name with
  | some value, some lastDescription => decide (describe name value ≠ lastDescription)
  | _, _ => false

end ChannelModel

namespace RPCModel

/-- A replicated function as the RPC decode loop sees it: `deserialise`
reports how many bytes the packed arguments occupy at a given offset
(its `bytes_read` return). -/
structure RPCFunc : Type where
  argBytes : List Nat → Nat → Nat

/-- The decode-and-execute loop of `ReplicableChannelBase.process_rpc_calls`
(`network/streams/replication/channels.py`), taken when the receiving peer
owns the replicable: read a one-byte function index
(`get_serialiser_for(int)` packs to a single byte), look the function up
(breaking out of the loop on failure), deserialise the arguments, advance
past them and call the function.  Returns the final offset and the indices
of the functions executed, in order. -/
def processLoopOwner (functions : List RPCFunc) (data : List Nat) (offset : Nat) :
    Nat × List Nat :=
  if h : offset < data.length then
    let rpcId := data.getD offset 0
    let offset1 := offset + 1
    match functions.get? rpcId with
    | Option.none => (offset1, [])
    | some f =>
      let bytesRead := f.argBytes data offset1
      let result := processLoopOwner functions data (offset1 + bytesRead)
      (result.1, rpcId :: result.2)
  else (offset, [])
termination_by data.length - offset
decreasing_by omega

/-- The decode-only loop of `ReplicableChannelBase.process_rpc_calls`, taken
when the peer lacks ownership ("We don't have permission to execute this!"):
identical parsing, but `rpc_instance.function` is never called.  Returns the
final offset. -/
def processLoopDenied (functions : List RPCFunc) (data : List Nat) (offset : Nat) :
    Nat :=
  if h : offset < data.length then
    let rpcId := data.getD offset 0
    let offset1 := offset + 1
    match functions.get? rpcId with
    | Option.none => offset1
    | some f =>
      let bytesRead := f.argBytes data offset1
      processLoopDenied functions data (offset1 + bytesRead)
  else offset
termination_by data.length - offset
decreasing_by omega

/-- `ReplicableChannelBase.process_rpc_calls`: choose the loop by the
ownership check `replicable.replicate_to_owner and replicable.root is
root_replicable`, and return `offset_final - start_offset` (the
`unpacked_bytes` result) together with the executed function indices. -/
def processRPCCalls (functions : List RPCFunc) (replicateToOwner : Bool)
    (rootIsRootReplicable : Bool) (data : List Nat) (offset : Nat) :
    Nat × List Nat :=
  if replicateToOwner ∧ rootIsRootReplicable then
    let result := processLoopOwner functions data offset
    (result.1 - offset, result.2)
  else
    (processLoopDenied functions data offset - offset, [])

end RPCModel

namespace ConnModel

/-- Modelled from the spec (§3, §6): a `Packet` from the missing
`network/packet.py` — protocol id, reliability flag and payload bytes. -/
structure Packet : Type where
  protocol : Nat
  reliable : Bool
  payload : List Nat
deriving DecidableEq

/-- Modelled from the spec: a `PacketCollection` is the list of packets sent
in one datagram. -/
def PacketCollection : Type := List Packet

instance : DecidableEq PacketCollection := by
  unfold PacketCollection
  infer_instance

/-- Modelled from the spec (§4.4, retransmission of reliable payloads only):
`PacketCollection.to_reliable` returns the reliable members as a fresh
collection, or `None` when there are none. -/
def toReliable (p : PacketCollection) : Option PacketCollection :=
  let reliableMembers := List.filter (fun pk => pk.reliable) p
  if reliableMembers.isEmpty then Option.none else some reliableMembers

/-- Modelled from the spec (§6 packet framing):
`[protocol_id][reliable_flag][length-prefixed body]` repeated. -/
def collectionToBytes (p : PacketCollection) : List Nat :=
  List.flatten (List.map
    (fun pk => pk.protocol :: (if pk.reliable then 1 else 0) ::
               pk.payload.length :: pk.payload) p)

/-- State of `network/connection.py`, `Connection`, restricted to the fields
`queue_packet` / `_update_reliable_information` read or write.  `bandwidth`
is a Python float, idealised as a rational. -/
structure ConnState : Type where
  localSequence : Nat
  remoteSequence : Nat
  requestedAck : List (Nat × PacketCollection)
  receivedWindow : List Nat
  outgoingAckBitfield : List Bool
  bandwidth : ℚ
  throttlePending : Bool
  taggedThrottleSequence : Option Nat
  queue : List (List Nat)
deriving DecidableEq

/-- `Connection.__init__` fields relevant here: bandwidth 1000, 32-slot
outgoing ack bitfield, empty maps, sequence counters at 0. -/
def initialConnState : ConnState :=
  { localSequence := 0, remoteSequence := 0, requestedAck := [],
    receivedWindow := [], outgoingAckBitfield := List.replicate 32 false,
    bandwidth := 1000, throttlePending := false,
    taggedThrottleSequence := Option.none, queue := [] }

/-- `Connection.start_throttling`: halve bandwidth, set `throttle_pending`. -/
def startThrottling (st : ConnState) : ConnState :=
  { st with bandwidth := st.bandwidth / 2, throttlePending := true }

/-- `Connection.stop_throttling`: clear the tag and `throttle_pending`. -/
def stopThrottling (st : ConnState) : ConnState :=
  { st with taggedThrottleSequence := Option.none, throttlePending := false }

/-- `Connection._get_reliable_information`: refresh the 32-bit outgoing ack
bitfield; bit `i` becomes whether sequence `remote_sequence - (i+1)` is in
the received window, negative sequences leaving the stored bit unchanged
(the loop `continue`s over them). -/
def getReliableInformation (st : ConnState) : List Bool :=
  List.map (fun (index : Nat) =>
      let packetSqn : Int := (st.remoteSequence : Int) - ((index : Int) + 1)
      if packetSqn < 0 then st.outgoingAckBitfield.getD index false
      else decide (packetSqn.toNat ∈ st.receivedWindow))
    (List.range 32)

/-- `Connection.queue_packet`: advance the wrapped local sequence, tag it if
a throttle probe is pending, refresh the outgoing ack bitfield, record the
packet under the new sequence (Python dict assignment), grow bandwidth by
`packet_growth` (500) and append the framed message to the queue. -/
def queuePacket (st : ConnState) (packet : PacketCollection) : ConnState :=
  let sequence := (st.localSequence + 1) % 256
  let tagged := if st.throttlePending ∧ st.taggedThrottleSequence = Option.none
    then some sequence else st.taggedThrottleSequence
  let ackBitfield := getReliableInformation st
  let message := st.localSequence.succ % 256 :: st.remoteSequence ::
    (List.map (fun b => if b then 1 else 0) ackBitfield ++ collectionToBytes packet)
  { st with
    localSequence := sequence,
    taggedThrottleSequence := tagged,
    outgoingAckBitfield := ackBitfield,
    requestedAck := PyDict.set st.requestedAck sequence packet,
    bandwidth := st.bandwidth + 500,
    queue := st.queue ++ [message] }

/-- Callback activity of one `_update_reliable_information` call: entries
whose `on_ack` ran, reliable sub-collections whose `on_not_ack` ran, the
fresh collections passed back to `queue_packet`, and the
`considered_dropped` list the source builds. -/
structure UpdateEvents : Type where
  acked : List (Nat × PacketCollection)
  notAcked : List (Nat × PacketCollection)
  requeued : List PacketCollection
  consideredDropped : List Nat
deriving DecidableEq

def emptyEvents : UpdateEvents :=
  { acked := [], notAcked := [], requeued := [], consideredDropped := [] }

/-- Pop an entry from `requested_ack` and run its `on_ack`; when it is the
tagged throttle sequence, stop throttling — the shared body of the two ack
branches of `_update_reliable_information`. -/
def popAck (st : ConnState) (ev : UpdateEvents) (seqNum : Nat) :
    ConnState × UpdateEvents :=
  match PyDict.get st.requestedAck seqNum with
  | Option.none => (st, ev)
  | some sentPacket =>
    let st1 := { st with requestedAck := PyDict.pop st.requestedAck seqNum }
    let st2 := if st1.taggedThrottleSequence = some seqNum
      then stopThrottling st1 else st1
    (st2, { ev with acked := ev.acked ++ [(seqNum, sentPacket)] })

/-- The `considered_dropped` loop of `_update_reliable_information`: pop each
dropped entry, and when it has reliable members run their `on_not_ack`, note
the missed ack and requeue them through `queue_packet`.  Returns the state,
the events and the `missed_ack` flag. -/
def processDropped (st : ConnState) (ev : UpdateEvents) :
    List (Nat × PacketCollection) → ConnState × UpdateEvents × Bool
  | [] => (st, ev, false)
  | (s, entry) :: rest =>
    let st1 := { st with requestedAck := PyDict.pop st.requestedAck s }
    match toReliable entry with
    | Option.none => processDropped st1 ev rest
    | some reliablePacket =>
      let ev1 := { ev with
        notAcked := ev.notAcked ++ [(s, reliablePacket)],
        requeued := ev.requeued ++ [reliablePacket] }
      let st2 := queuePacket st1 reliablePacket
      let result := processDropped st2 ev1 rest
      (result.1, result.2.1, true)

/-- The two acknowledgement phases of `_update_reliable_information`: pop
and `on_ack` every entry hit by the incoming ack bitfield, then the ack
base sequence itself (stopping the throttle probe when the tagged sequence
comes back). -/
def ackPhases (st : ConnState) (ackBase : Nat) (ackBitfield : List Bool) :
    ConnState × UpdateEvents :=
  let step1 := List.foldl
    (fun (acc : ConnState × UpdateEvents) (relativeSequence : Nat) =>
      let absoluteSequence : Int := (ackBase : Int) - ((relativeSequence : Int) + 1)
      if ackBitfield.getD relativeSequence false ∧ 0 ≤ absoluteSequence ∧
          PyDict.hasKey acc.1.requestedAck absoluteSequence.toNat then
        popAck acc.1 acc.2 absoluteSequence.toNat
      else acc)
    (st, emptyEvents) (List.range 32)
  if PyDict.hasKey step1.1.requestedAck ackBase
    then popAck step1.1 step1.2 ackBase else step1

/-- `Connection._update_reliable_information(ack_base, ack_bitfield)`:
acknowledge every bitfield hit and the base sequence itself, collect the
entries whose sequence satisfies `(ack_base - s) >= 32` as
`considered_dropped`, process them, and throttle when a reliable entry was
lost and no throttle is pending. -/
def updateReliableInformation (st : ConnState) (ackBase : Nat)
    (ackBitfield : List Bool) : ConnState × UpdateEvents :=
  let step2 := ackPhases st ackBase ackBitfield
  let consideredDropped := List.filter
    (fun kv => decide ((ackBase : Int) - kv.1 ≥ 32)) step2.1.requestedAck
  let step3 := processDropped step2.1
    { step2.2 with consideredDropped := List.map Prod.fst consideredDropped }
    consideredDropped
  let st4 := if step3.2.2 ∧ ¬ step3.1.throttlePending
    then startThrottling step3.1 else step3.1
  (st4, step3.2.1)

end ConnModel

namespace ReconModel

/-- A 3-vector of Python floats, idealised as rationals. -/
structure Vec3 : Type where
  x : ℚ
  y : ℚ
  z : ℚ
deriving DecidableEq

/-- The pawn state touched by `client_correct_move`: transform position and
orientation, physics velocity and angular velocity
(`game_system/replicables.py` via the entity's transform/physics
interfaces). -/
structure PawnState : Type where
  worldPosition : Vec3
  worldVelocity : Vec3
  worldOrientation : Vec3
  worldAngular : Vec3
deriving DecidableEq

/-- `PlayerPawnController` client state used by `client_correct_move`:
pawn, current `move_id`, the `sent_states` map and
`latest_correction_id`. -/
structure ControllerState (σ : Type) : Type where
  pawn : Option PawnState
  moveId : Nat
  sentStates : List (Nat × σ)
  latestCorrectionId : Nat

/-- The state rewrite at the head of `client_correct_move`: restore
position and velocity, and recreate only the Z components of orientation
and angular velocity from the corrected yaw values. -/
def applyCorrection (pawn : PawnState) (position : Vec3) (yaw : ℚ)
    (velocity : Vec3) (angularYaw : ℚ) : PawnState :=
  { pawn with
    worldPosition := position,
    worldVelocity := velocity,
    worldOrientation := { pawn.worldOrientation with z := yaw },
    worldAngular := { pawn.worldAngular with z := angularYaw } }

/-- `PlayerPawnController.client_correct_move(move_id, position, yaw,
velocity, angular_yaw)` (`game_system/replicables.py`): do nothing without a
pawn; otherwise apply the correction, then replay
`for move_id in range(move_id, self.move_id + 1)` the stored input states
through `process_inputs` (a subclass hook, passed in as a parameter; the
per-replay physics step is commented out in the source), finally store the
loop variable's last value into `latest_correction_id`.  `none` models the
`KeyError` raised when a replayed id is missing from `sent_states`. -/
def clientCorrectMove {σ : Type} (processInputs : PawnState → σ → PawnState)
    (c : ControllerState σ) (moveId : Nat) (position : Vec3) (yaw : ℚ)
    (velocity : Vec3) (angularYaw : ℚ) : Option (ControllerState σ) :=
  match c.pawn with
  | Option.none => some c
  | some pawn0 =>
    let pawn1 := applyCorrection pawn0 position yaw velocity angularYaw
    let ids := List.range' moveId (c.moveId + 1 - moveId)
    let replayed := List.foldl
      (fun (acc : Option PawnState) i =>
        match acc with
        | Option.none => Option.none
        | some p =>
          match PyDict.get c.sentStates i with
          | Option.none => Option.none
          | some inputState => some (processInputs p inputState))
      (some pawn1) ids
    match replayed with
    | Option.none => Option.none
    | some pawnFinal =>
      some { c with
        pawn := some pawnFinal,
        latestCorrectionId := if moveId ≤ c.moveId then c.moveId else moveId }

/-- The reconciled state as the claim words it: apply the correction, then
replay only the stored inputs with id strictly greater than `move_id`.
(Reference definition for comparison with `clientCorrectMove`; it is not a
translation of the source.) -/
def reconcileAsClaimed {σ : Type} (processInputs : PawnState → σ → PawnState)
    (c : ControllerState σ) (moveId : Nat) (position : Vec3) (yaw : ℚ)
    (velocity : Vec3) (angularYaw : ℚ) : Option PawnState :=
  match c.pawn with
  | Option.none => Option.none
  | some pawn0 =>
    let pawn1 := applyCorrection pawn0 position yaw velocity angularYaw
    let ids := List.range' (moveId + 1) (c.moveId - moveId)
    List.foldl
      (fun (acc : Option PawnState) i =>
        match acc with
        | Option.none => Option.none
        | some p =>
          match PyDict.get c.sentStates i with
          | Option.none => Option.none
          | some inputState => some (processInputs p inputState))
      (some pawn1) ids

end ReconModel

namespace ValidateModel

/-- The exact rational value of the IEEE-754 double `math.pi` used by the
source (floats idealised as exact rationals; rounding of individual float
operations is not modelled). -/
def piFloat : ℚ := 884279719003555 / 281474976710656

/-- Python float `%` for a positive divisor: result in `[0, y)` with the
divisor's sign, `x - y * floor(x / y)`. -/
def pymod (x y : ℚ) : ℚ := x - y * (⌊x / y⌋ : ℤ)

/-- A 3-vector of Python floats, idealised as rationals. -/
structure Vec3Q : Type where
  x : ℚ
  y : ℚ
  z : ℚ
deriving DecidableEq

def Vec3Q.sub (a b : Vec3Q) : Vec3Q := ⟨a.x - b.x, a.y - b.y, a.z - b.z⟩

def Vec3Q.lengthSquared (a : Vec3Q) : ℚ := a.x * a.x + a.y * a.y + a.z * a.z

/-- `PlayerPawnController.MAX_POSITION_ERROR_SQUARED = 0.5`. -/
def MAX_POSITION_ERROR_SQUARED : ℚ := 1 / 2

/-- `PlayerPawnController.MAX_ORIENTATION_ANGLE_ERROR_SQUARED =
radians(5) ** 2`. -/
def MAX_ORIENTATION_ANGLE_ERROR_SQUARED : ℚ := (5 * piFloat / 180) ^ 2

/-- The pawn state read by `server_validate_last_move`: world position,
orientation yaw (`world_orientation.z`), velocity and angular yaw. -/
structure PawnSim : Type where
  position : Vec3Q
  yaw : ℚ
  velocity : Vec3Q
  angularYaw : ℚ
deriving DecidableEq

/-- A stored entry of `client_moves_states`: client-reported position, yaw
and the client's `latest_correction_id`. -/
structure MoveState : Type where
  clientPosition : Vec3Q
  clientYaw : ℚ
  clientLastCorrection : Nat
deriving DecidableEq

/-- `PlayerPawnController` server state read by
`server_validate_last_move`. -/
structure ValidateState : Type where
  pawn : Option PawnSim
  pendingValidationMoveId : Option Nat
  clientMovesStates : List (Nat × MoveState)
  lastCorrectedMoveId : Nat
deriving DecidableEq

/-- A `client_correct_move` invocation:
`(move_id, position, yaw, velocity, angular_yaw)`. -/
structure Correction : Type where
  moveId : Nat
  position : Vec3Q
  yaw : ℚ
  velocity : Vec3Q
  angularYaw : ℚ
deriving DecidableEq

/-- `PlayerPawnController.server_validate_last_move`
(`game_system/replicables.py`): bail without a pawn or pending move id;
clear the pending id; delete stored moves older than it; pop its own state
(`none` models the `KeyError` when it is absent); skip when the client has
not yet applied the last correction; else compare positions by squared
distance and yaws by `min(d, pi - d)` of `d = ((client_yaw - yaw) % pi)**2`,
and on error send `client_correct_move` and record
`last_corrected_move_id`. -/
def serverValidateLastMove (s : ValidateState) :
    Option (ValidateState × Option Correction) :=
  match s.pawn with
  | Option.none => some (s, Option.none)
  | some pawn =>
    match s.pendingValidationMoveId with
    | Option.none => some (s, Option.none)
    | some moveId =>
      let s1 := { s with pendingValidationMoveId := Option.none }
      let movesStates := List.filter (fun kv => ¬ kv.1 < moveId)
        s1.clientMovesStates
      match PyDict.get movesStates moveId with
      | Option.none => Option.none
      | some clientState =>
        let movesStates2 := PyDict.pop movesStates moveId
        let s2 := { s1 with clientMovesStates := movesStates2 }
        if clientState.clientLastCorrection < s.lastCorrectedMoveId then
          some (s2, Option.none)
        else
          let posErr := (clientState.clientPosition.sub pawn.position).lengthSquared
            > MAX_POSITION_ERROR_SQUARED
          let absYawDiff := (pymod (clientState.clientYaw - pawn.yaw) piFloat) ^ 2
          let rotErr := min absYawDiff (piFloat - absYawDiff)
            > MAX_ORIENTATION_ANGLE_ERROR_SQUARED
          if posErr ∨ rotErr then
            some ({ s2 with lastCorrectedMoveId := moveId },
                  some ⟨moveId, pawn.position, pawn.yaw, pawn.velocity,
                        pawn.angularYaw⟩)
          else
            some (s2, Option.none)

/-- The correction condition as the claim words it: squared position error
above the bound, or the square of the minimum wrap-around yaw error above
the bound.  (Reference definition for comparison with
`serverValidateLastMove`; not a translation of the source.) -/
def shouldCorrectAsClaimed (pawn : PawnSim) (clientState : MoveState) : Bool :=
  let yawError := pymod (clientState.clientYaw - pawn.yaw) (2 * piFloat)
  let minWrapError := min yawError (2 * piFloat - yawError)
  decide ((clientState.clientPosition.sub pawn.position).lengthSquared
      > MAX_POSITION_ERROR_SQUARED) ||
  decide (minWrapError ^ 2 > MAX_ORIENTATION_ANGLE_ERROR_SQUARED)

end ValidateModel

namespace FlagSerModel

/-- Little-endian byte value of up to 8 bits (bit 0 is the head). -/
def byteOfBits (l : List Bool) : Nat :=
  List.foldr (fun b acc => (if b then 1 else 0) + 2 * acc) 0 l

/-- Pack a bit list into whole bytes, 8 bits per byte, little-endian within
each byte. -/
def bytesOfBits (l : List Bool) : List Nat :=
  match l with
  | [] => []
  | b :: rest => byteOfBits (List.take 8 (b :: rest)) ::
      bytesOfBits (List.drop 8 (b :: rest))
termination_by l.length
decreasing_by simp; omega

/-- The `k` low bits of a byte value, little-endian. -/
def bitsOfByteAux : Nat → Nat → List Bool
  | _, 0 => []
  | n, k + 1 => decide (n % 2 = 1) :: bitsOfByteAux (n / 2) k

/-- All bits of a byte string, 8 per byte. -/
def bitsOfBytes (bs : List Nat) : List Bool :=
  List.flatten (List.map (fun n => bitsOfByteAux n 8) bs)

/-- Modelled from the spec (§4.1: bitmasks use a length-prefixed width
derived from their nominal bit count, padded to whole bytes): the missing
`BitField` serialiser's `pack` — the bit count followed by the packed
bytes. -/
def bfPack (bits : List Bool) : List Nat := bits.length :: bytesOfBits bits

/-- Modelled from the spec: the `BitField` serialiser's `size` — one prefix
byte plus the bytes covering the prefixed bit count. -/
def bfSize (bs : List Nat) : Nat := 1 + (bs.headD 0 + 7) / 8

/-- Modelled from the spec: the `BitField` serialiser's `unpack_merge` into
a field of `n` bits — decode the packed bytes, padding with `False` bits
(a fresh `BitField(n)` is all-clear) and keeping `n` bits. -/
def bfUnpack (n : Nat) (bs : List Nat) : List Bool :=
  List.take n (bitsOfBytes (List.drop 1 bs) ++ List.replicate n false)

/-- A serialiser of non-boolean field values, with the handler interface
`flag_serialiser.py` uses: `pack`, `unpack_from` and `size` (handlers come
from `get_handler` in `network/handler_interfaces.py`; these generic
handlers expose no `unpack_merge`, so the merge branch of `unpack` is never
taken for them). -/
structure Handler (V : Type) : Type where
  pack : V → List Nat
  unpackFrom : List Nat → V
  size : List Nat → Nat

/-- A value stored in the data map handed to `FlagSerialiser.pack`: `None`,
a non-boolean value, or a boolean. -/
inductive FieldVal (V : Type) : Type
  | none
  | val (v : V)
  | bool (b : Bool)
deriving DecidableEq

/-- The non-boolean loop of `FlagSerialiser.pack`
(`network/flag_serialiser.py`): per declared field, a contents bit (key
present), a `None` bit, and the packed payload for present non-`None`
values, in declaration order.  A `.bool` value under a non-boolean field is
ill-typed use of the serialiser and packs nothing (see the typing
hypotheses of the round-trip theorem). -/
def packNonBool {κ V : Type} [DecidableEq κ] (nonBool : List (κ × Handler V))
    (data : List (κ × FieldVal V)) : List Bool × List Bool × List (List Nat) :=
  match nonBool with
  | [] => ([], [], [])
  | (key, handler) :: rest =>
    let r := packNonBool rest data
    match PyDict.get data key with
    | Option.none => (false :: r.1, false :: r.2.1, r.2.2)
    | some FieldVal.none => (true :: r.1, true :: r.2.1, r.2.2)
    | some (FieldVal.val v) => (true :: r.1, false :: r.2.1, handler.pack v :: r.2.2)
    | some (FieldVal.bool _) => (true :: r.1, false :: r.2.1, r.2.2)

/-- The boolean loop of `FlagSerialiser.pack`: per boolean field, a contents
bit, a `None` bit, and its bit in the cleared boolean bitfield (set only for
present, non-`None` values).  A `.val` value under a boolean field is
ill-typed and leaves the bit clear. -/
def packBools {κ V : Type} [DecidableEq κ] (boolNames : List κ)
    (data : List (κ × FieldVal V)) : List Bool × List Bool × List Bool :=
  match boolNames with
  | [] => ([], [], [])
  | key :: rest =>
    let r := packBools rest data
    match PyDict.get data key with
    | Option.none => (false :: r.1, false :: r.2.1, false :: r.2.2)
    | some FieldVal.none => (true :: r.1, true :: r.2.1, false :: r.2.2)
    | some (FieldVal.bool b) => (true :: r.1, false :: r.2.1, b :: r.2.2)
    | some (FieldVal.val _) => (true :: r.1, false :: r.2.1, false :: r.2.2)

/-- `FlagSerialiser.pack(data)`: contents bitmask over all fields plus the
`BOOL_CONTENT` and `NONE_CONTENT` sentinel bits, then (when any `None` bit
is set) the `None` bitmask, then the non-boolean payloads, then (when
`len(data) > total_none_booleans`) the packed boolean bitfield.  Note the
source only emits the boolean section under that length test. -/
def fsPack {κ V : Type} [DecidableEq κ] (nonBool : List (κ × Handler V))
    (boolNames : List κ) (data : List (κ × FieldVal V)) : List Nat :=
  let rN := packNonBool nonBool data
  let hasBooleans := decide (data.length > nonBool.length)
  let rB := packBools boolNames data
  let contentFields := rN.1 ++
    (if hasBooleans then rB.1 else List.replicate boolNames.length false)
  let noneBits := rN.2.1 ++
    (if hasBooleans then rB.2.1 else List.replicate boolNames.length false)
  let noneSentinel := noneBits.any id
  let contentBits := contentFields ++ [hasBooleans, noneSentinel]
  let dataValues := (if noneSentinel then [bfPack noneBits] else []) ++
    rN.2.2 ++ (if hasBooleans then [bfPack rB.2.2] else [])
  bfPack contentBits ++ List.flatten dataValues

/-- The non-boolean loop of `FlagSerialiser.unpack`: walk the contents and
`None` bits alongside the declared handlers (`zip` stops at the shortest
list, as in the source), yielding `None` for `None` bits and unpacking and
consuming payload bytes otherwise.  `previous_values` is empty in the
claim's round trip and these handlers have no `unpack_merge`, so the merge
branch is never taken.  Returns the decoded pairs and the remaining
bytes. -/
def unpackNonBool {κ V : Type} : List Bool → List Bool →
    List (κ × Handler V) → List Nat → List (κ × FieldVal V) × List Nat
  | included :: cs, valueNone :: ns, (key, handler) :: rest, bs =>
    if included then
      if valueNone then
        let r := unpackNonBool cs ns rest bs
        ((key, FieldVal.none) :: r.1, r.2)
      else
        let v := handler.unpackFrom bs
        let r := unpackNonBool cs ns rest (List.drop (handler.size bs) bs)
        ((key, FieldVal.val v) :: r.1, r.2)
    else unpackNonBool cs ns rest bs
  | _, _, _, bs => ([], bs)

/-- The boolean tail of `FlagSerialiser.unpack`: zip the decoded boolean
bitfield with the boolean names, their contents bits and their `None` bits,
yielding the found entries. -/
def unpackBools {κ V : Type} : List Bool → List κ → List Bool → List Bool →
    List (κ × FieldVal V)
  | value :: vs, key :: ks, found :: fs, noneValue :: ns =>
    let r := unpackBools vs ks fs ns
    if found then
      (key, if noneValue then FieldVal.none else FieldVal.bool value) :: r
    else r
  | _, _, _, _ => []

/-- `FlagSerialiser.unpack(bytes_)` with empty `previous_values`: read the
contents bitmask, then the `None` bitmask when its sentinel is set (a clear
field otherwise), decode the non-boolean fields, then — when booleans are
declared and their sentinel is set — the boolean bitfield.  Returns the
yielded (key, value) pairs in yield order. -/
def fsUnpack {κ V : Type} (nonBool : List (κ × Handler V)) (boolNames : List κ)
    (bs : List Nat) : List (κ × FieldVal V) :=
  let n := nonBool.length + boolNames.length
  let contentValues := bfUnpack (n + 2) bs
  let bs1 := List.drop (bfSize bs) bs
  let hasNoneTypes := contentValues.getD (n + 1) false
  let hasBooleans := boolNames.length ≠ 0 ∧ contentValues.getD n false
  let noneBits := if hasNoneTypes then bfUnpack n bs1
    else List.replicate n false
  let bs2 := if hasNoneTypes then List.drop (bfSize bs1) bs1 else bs1
  let rNB := unpackNonBool contentValues noneBits nonBool bs2
  let boolPairs := if hasBooleans then
      unpackBools (bfUnpack boolNames.length rNB.2) boolNames
        (List.drop nonBool.length contentValues)
        (List.drop nonBool.length noneBits)
    else []
  rNB.1 ++ boolPairs

/-- The `UInt8` handler of `network/serialiser.py` (`struct` format `!B`):
one byte, value range enforced by `struct`. -/
def uint8Handler : Handler Nat :=
  { pack := fun v => [v % 256], unpackFrom := fun bs => bs.headD 0,
    size := fun _ => 1 }

end FlagSerModel

namespace ReconModel

/-- A concrete input application used to exhibit the replay range:
each input digit is appended to the pawn's x coordinate. -/
def digitInputs (p : PawnState) (n : Nat) : PawnState :=
  { p with worldPosition :=
      { p.worldPosition with x := p.worldPosition.x * 10 + n } }

/-- A concrete controller: pawn at the origin, moves 1 and 2 stored,
`move_id = 2`. -/
def sampleController : ControllerState Nat :=
  { pawn := some ⟨⟨0, 0, 0⟩, ⟨0, 0, 0⟩, ⟨0, 0, 0⟩, ⟨0, 0, 0⟩⟩,
    moveId := 2, sentStates := [(1, 1), (2, 2)], latestCorrectionId := 0 }

end ReconModel

namespace ValidateModel

def samplePawn : PawnSim := ⟨⟨0, 0, 0⟩, 0, ⟨0, 0, 0⟩, 0⟩

def sampleMove : MoveState := ⟨⟨0, 0, 0⟩, 2, 0⟩

def sampleState : ValidateState :=
  ⟨some samplePawn, some 1, [(1, sampleMove)], 0⟩

end ValidateModel

namespace ConnModel

/-- A small reliable packet used in the concrete transport scenarios. -/
def basicPacket : Packet := { protocol := 2, reliable := true, payload := [9] }

/-- The invariant maintained through the two acknowledgement phases of
`_update_reliable_information` for an entry `s` that neither phase may pop:
the entry survives, only pops happen, the sequence counter, bandwidth and
(cleared) throttle flag are untouched, and no loss events are emitted. -/
def Phase12Inv (st0 : ConnState) (s : Nat) (entry : PacketCollection)
    (x : ConnState × UpdateEvents) : Prop :=
  PyDict.get x.1.requestedAck s = some entry ∧
  x.1.localSequence = st0.localSequence ∧
  x.1.bandwidth = st0.bandwidth ∧
  x.1.throttlePending = false ∧
  x.2.notAcked = [] ∧
  x.2.requeued = [] ∧
  x.2.consideredDropped = [] ∧
  (List.map Prod.fst x.1.requestedAck).Nodup ∧
  x.1.requestedAck.length ≤ st0.requestedAck.length

/-- The reliable sub-collection of a dropped entry, as the source's
`to_reliable` computes it. -/
def relOf (p : PacketCollection) : PacketCollection :=
  List.filter (fun pk => pk.reliable) p

/-- Whether a dropped entry triggers a retransmission. -/
def hasRel (kv : Nat × PacketCollection) : Bool :=
  !(relOf kv.2).isEmpty

/-- The connection state of the wrap counterexample: one outstanding
reliable entry at sequence 200. -/
def staleWrapState : ConnState :=
  { initialConnState with
    localSequence := 220
    requestedAck := [(200, [basicPacket])] }

/-- A state with one plainly stale reliable entry, for the amended C3
witness. -/
def staleState2 : ConnState :=
  { initialConnState with
    localSequence := 100
    requestedAck := [(1, [basicPacket])] }

end ConnModel

namespace FlagSerModel

/-- The round-trip laws a field handler satisfies (true of the concrete
handlers built in `network/serialiser.py`). -/
def HandlerLaws {V : Type} (h : Handler V) : Prop :=
  (∀ v rest, h.unpackFrom (h.pack v ++ rest) = v) ∧
  (∀ v rest, h.size (h.pack v ++ rest) = (h.pack v).length)

/-- The (key, value) pairs of the data map restricted to the given keys, in
key-list order — the reference shape of `unpack`'s yield stream. -/
def pairsOf {κ V : Type} [DecidableEq κ] (keys : List κ)
    (d : List (κ × FieldVal V)) : List (κ × FieldVal V) :=
  keys.filterMap (fun k => (PyDict.get d k).map (fun fv => (k, fv)))

/-- The `UInt8` handler restricted to the value range `struct` format `!B`
enforces (`struct.error` outside 0..255), for which the handler laws hold
exactly. -/
def uint8HandlerRanged : Handler (Fin 256) :=
  { pack := fun v => [v.val]
    unpackFrom := fun bs => ⟨bs.headD 0 % 256, Nat.mod_lt _ (by norm_num)⟩
    size := fun _ => 1 }

end FlagSerModel

/-! ## Theorems -/

namespace PyDict

variable {κ : Type} [DecidableEq κ]

theorem get_set_self (m : List (κ × α)) (k : κ) (v : α) :
    get (set m k v) k = some v := by
  induction m with
  | nil => simp [set, get]
  | cons hd tl ih =>
    obtain ⟨k2, v2⟩ := hd
    by_cases h : k2 = k
    · simp [set, get, h]
    · simp [set, get, h, ih]

theorem get_set_other (m : List (κ × α)) (k k2 : κ) (v : α)
    (h : k ≠ k2) : get (set m k2 v) k = get m k := by
  induction m with
  | nil => simp [set, get, Ne.symm h]
  | cons hd tl ih =>
    obtain ⟨k3, v3⟩ := hd
    by_cases h3 : k3 = k2
    · subst h3
      simp [set, get, Ne.symm h]
    · by_cases h4 : k3 = k
      · subst h4
        simp [set, get, h3, h]
      · simp [set, get, h3, h4, ih]

end PyDict

namespace HandshakeModel

theorem serverStep_inv (m : ServerManager) (e : Event) (h : serverInv m) :
    serverInv (serverStep m e) := by
  obtain ⟨h0, h1, h2⟩ := h
  cases e with
  | requestDisconnect =>
    refine ⟨?_, h1, h2⟩
    intro hs
    simp [serverStep, receiveDisconnectRequest] at hs
  | requestHandshake r =>
    by_cases hs : m.state = ConnState.awaitingHandshake
    · obtain ⟨hp, hq⟩ := h0 hs
      have hstep : serverStep m (Event.requestHandshake r) =
          sendHandshakeResult
            { m with state := ConnState.receivedHandshake,
                     preInitialiseCalls := m.preInitialiseCalls + 1,
                     handshakeError :=
                       if r.isSome then r else m.handshakeError } := by
        simp only [serverStep, receiveHandshakeRequest, ne_eq]
        rw [if_neg (by simp [hs])]
      rw [hstep]
      unfold sendHandshakeResult serverInv
      refine ⟨?_, ?_, ?_⟩ <;> split_ifs <;> simp [hp, hq]
    · have hstep : serverStep m (Event.requestHandshake r) = m := by
        simp only [serverStep, receiveHandshakeRequest, ne_eq]
        rw [if_pos hs]
      rw [hstep]
      exact ⟨fun h => (hs h).elim, h1, h2⟩

theorem serverInv_foldl (events : List Event) (m : ServerManager)
    (h : serverInv m) : serverInv (events.foldl serverStep m) := by
  induction events generalizing m with
  | nil => exact h
  | cons e rest ih => exact ih _ (serverStep_inv m e h)

end HandshakeModel

namespace PyDict

variable {κ : Type} [DecidableEq κ]

theorem get_eq_none_of_not_mem (m : List (κ × α)) (k : κ)
    (h : k ∉ List.map Prod.fst m) : get m k = none := by
  induction m with
  | nil => rfl
  | cons hd tl ih =>
    obtain ⟨k2, v2⟩ := hd
    simp only [List.map_cons, List.mem_cons, not_or] at h
    simp only [get]
    rw [if_neg (show ¬ k2 = k from fun hh => h.1 (Eq.symm hh))]
    exact ih h.2

theorem pop_sublist (m : List (κ × α)) (k : κ) : List.Sublist (pop m k) m := by
  induction m with
  | nil => simp [pop]
  | cons hd tl ih =>
    obtain ⟨k2, v2⟩ := hd
    by_cases h : k2 = k
    · simpa [pop, h] using List.sublist_cons_self _ _
    · simpa [pop, h] using ih.cons₂ (k2, v2)

theorem get_pop_self (m : List (κ × α)) (k : κ)
    (hnodup : (List.map Prod.fst m).Nodup) : get (pop m k) k = none := by
  induction m with
  | nil => simp [pop, get]
  | cons hd tl ih =>
    obtain ⟨k2, v2⟩ := hd
    simp only [List.map_cons, List.nodup_cons] at hnodup
    by_cases h : k2 = k
    · subst h
      simp only [pop, if_pos rfl]
      exact get_eq_none_of_not_mem tl k2 hnodup.1
    · simp only [pop, if_neg h, get, if_neg h]
      exact ih hnodup.2

theorem get_pop_other (m : List (κ × α)) (k k2 : κ) (h : k ≠ k2) :
    get (pop m k2) k = get m k := by
  induction m with
  | nil => simp [pop, get]
  | cons hd tl ih =>
    obtain ⟨k3, v3⟩ := hd
    by_cases h3 : k3 = k2
    · subst h3
      simp [pop, get, Ne.symm h]
    · simp only [pop, if_neg h3, get]
      by_cases h4 : k3 = k
      · simp [h4]
      · simp [h4, ih]

theorem pop_length_le (m : List (κ × α)) (k : κ) :
    (pop m k).length ≤ m.length :=
  (pop_sublist m k).length_le

theorem nodup_pop (m : List (κ × α)) (k : κ)
    (hnodup : (List.map Prod.fst m).Nodup) :
    (List.map Prod.fst (pop m k)).Nodup :=
  hnodup.sublist ((pop_sublist m k).map Prod.fst)

end PyDict

/-- C10: assigning a value that compares equal (Python `==`) to the stored
value to a replicated `Attribute` is a complete no-op — storage (value and
complaint state) is unchanged, no complaint is registered and no `TypeError`
is raised, whatever the declared type. -/
theorem attribute_set_equal_value_is_noop (desc : AttrModel.PyVal → Int)
    (complain : Bool) (ty : AttrModel.PyType) (st : AttrModel.Storage)
    (v : AttrModel.PyVal) (h : AttrModel.pyEq st.value v = true) :
    AttrModel.attrSet desc complain ty st v = (st, Option.none) := by
  simp [AttrModel.attrSet, h]

/-- Witness for C10: the stored float `1.0` and the assigned int `1` compare
equal while `isinstance(1, float)` is false, and the assignment is a no-op
with no `TypeError`. -/
theorem attribute_set_equal_value_is_noop_witness :
    AttrModel.pyEq (AttrModel.PyVal.float 1) (AttrModel.PyVal.int 1) = true ∧
    AttrModel.pyIsInstance (AttrModel.PyVal.int 1) AttrModel.PyType.floatT = false ∧
    AttrModel.attrSet (fun _ => 0) true AttrModel.PyType.floatT
      { value := AttrModel.PyVal.float 1, complaint := Option.none }
      (AttrModel.PyVal.int 1) =
      ({ value := AttrModel.PyVal.float 1, complaint := Option.none }, Option.none) :=
  ⟨by decide, by decide,
   attribute_set_equal_value_is_noop (fun _ => 0) true AttrModel.PyType.floatT
     { value := AttrModel.PyVal.float 1, complaint := Option.none }
     (AttrModel.PyVal.int 1) (by decide)⟩

/-- C6: `Scene.add_replicable` with an explicit id that is already occupied
gives the contested id to the new replicable, reassigns the existing one to
a fresh id taken from the pool, and leaves both addressable under those
ids. -/
theorem scene_add_replicable_contest (s : SceneModel.Scene) (tag uid fresh : Nat)
    (existing : SceneModel.Replicable) (rest : List Nat)
    (hocc : PyDict.get s.replicables uid = some existing)
    (hpool : s.pool.available = fresh :: rest)
    (hne : fresh ≠ uid) :
    SceneModel.addReplicable s tag (some uid) =
      some ({ replicables :=
                PyDict.set (PyDict.set s.replicables uid ⟨tag, uid⟩) fresh
                  { existing with uniqueId := fresh },
              pool := ⟨rest⟩ }, ⟨tag, uid⟩) ∧
    PyDict.get (PyDict.set (PyDict.set s.replicables uid ⟨tag, uid⟩) fresh
        { existing with uniqueId := fresh }) uid =
      some ⟨tag, uid⟩ ∧
    PyDict.get (PyDict.set (PyDict.set s.replicables uid ⟨tag, uid⟩) fresh
        { existing with uniqueId := fresh }) fresh =
      some { existing with uniqueId := fresh } := by
  refine ⟨?_, ?_, ?_⟩
  · simp [SceneModel.addReplicable, hocc, SceneModel.contestId,
      SceneModel.UniqueIDPool.take, hpool]
  · rw [PyDict.get_set_other _ _ _ _ (Ne.symm hne), PyDict.get_set_self]
  · rw [PyDict.get_set_self]

/-- Witness for C6: a dynamic replicable occupies id 7, the pool offers 8;
adding a static replicable at 7 moves the old one to 8 and both are
addressable. -/
theorem scene_add_replicable_contest_witness :
    SceneModel.addReplicable
        { replicables := [(7, ⟨1, 7⟩)], pool := ⟨[8, 9]⟩ } 2 (some 7) =
      some ({ replicables := [(7, ⟨2, 7⟩), (8, ⟨1, 8⟩)], pool := ⟨[9]⟩ },
            ⟨2, 7⟩) ∧
    PyDict.get ([(7, (⟨2, 7⟩ : SceneModel.Replicable)), (8, ⟨1, 8⟩)]) 7 =
      some ⟨2, 7⟩ ∧
    PyDict.get ([(7, (⟨2, 7⟩ : SceneModel.Replicable)), (8, ⟨1, 8⟩)]) 8 =
      some ⟨1, 8⟩ := by
  have h := scene_add_replicable_contest
    { replicables := [(7, ⟨1, 7⟩)], pool := ⟨[8, 9]⟩ } 2 7 8 ⟨1, 7⟩ [9]
    (by decide) rfl (by decide)
  exact ⟨h.1, h.2.1, h.2.2⟩

/-- C9: for any sequence of inbound events, the server handshake manager
calls `Rules.pre_initialise` at most once and sends at most one handshake
result packet; once it has left `awaiting_handshake`, a further
`request_handshake` is a strict no-op. -/
theorem server_handshake_effects_at_most_once (events : List HandshakeModel.Event) :
    (List.foldl HandshakeModel.serverStep HandshakeModel.initialServerManager
        events).preInitialiseCalls ≤ 1 ∧
    (List.foldl HandshakeModel.serverStep HandshakeModel.initialServerManager
        events).resultPacketsSent ≤ 1 ∧
    ∀ (m : HandshakeModel.ServerManager) (r : Option String),
      m.state ≠ HandshakeModel.ConnState.awaitingHandshake →
      HandshakeModel.serverStep m (HandshakeModel.Event.requestHandshake r) = m := by
  have hinv := HandshakeModel.serverInv_foldl events
    HandshakeModel.initialServerManager ⟨fun _ => ⟨rfl, rfl⟩, by decide, by decide⟩
  refine ⟨hinv.2.1, hinv.2.2, ?_⟩
  intro m r hm
  simp only [HandshakeModel.serverStep, HandshakeModel.receiveHandshakeRequest,
    ne_eq]
  rw [if_pos hm]

/-- Witness for C9: two handshake requests (the second while connected)
yield one `pre_initialise` call and one result packet, and a request in the
connected state is ignored. -/
theorem server_handshake_effects_at_most_once_witness :
    (List.foldl HandshakeModel.serverStep HandshakeModel.initialServerManager
        [HandshakeModel.Event.requestHandshake Option.none,
         HandshakeModel.Event.requestHandshake Option.none]).preInitialiseCalls ≤ 1 ∧
    HandshakeModel.serverStep
        { state := HandshakeModel.ConnState.connected,
          handshakeError := Option.none, preInitialiseCalls := 1,
          resultPacketsSent := 1 }
        (HandshakeModel.Event.requestHandshake Option.none) =
      { state := HandshakeModel.ConnState.connected,
        handshakeError := Option.none, preInitialiseCalls := 1,
        resultPacketsSent := 1 } := by
  have h := server_handshake_effects_at_most_once
    [HandshakeModel.Event.requestHandshake Option.none,
     HandshakeModel.Event.requestHandshake Option.none]
  exact ⟨h.1, h.2.2 _ Option.none (by decide)⟩

namespace RPCModel

theorem processLoopOwner_fst_eq_denied (functions : List RPCFunc)
    (data : List Nat) (offset : Nat) :
    (processLoopOwner functions data offset).1 =
      processLoopDenied functions data offset := by
  induction offset using processLoopOwner.induct functions data with
  | case1 x hx rpcId hnone =>
    have h2 : List.get? functions (List.getD data x 0) = Option.none := hnone
    unfold processLoopOwner processLoopDenied
    simp only [dif_pos hx, h2]
  | case2 x hx rpcId offset1 f hsome bytesRead ih =>
    have h2 : List.get? functions (List.getD data x 0) = some f := hsome
    unfold processLoopOwner processLoopDenied
    simp only [dif_pos hx, h2]
    exact ih
  | case3 x hx =>
    unfold processLoopOwner processLoopDenied
    simp only [dif_neg hx]

end RPCModel

/-- C7: when the receiving peer lacks ownership (the replicable does not
replicate to its owner, or the connection root is not the replicable's
root), `process_rpc_calls` consumes exactly as many bytes as the permitted
case would, and executes no replicated function. -/
theorem rpc_denied_decodes_but_never_executes (functions : List RPCModel.RPCFunc)
    (data : List Nat) (offset : Nat) (replicateToOwner rootIs : Bool)
    (h : ¬ (replicateToOwner = true ∧ rootIs = true)) :
    (RPCModel.processRPCCalls functions replicateToOwner rootIs data offset).1 =
      (RPCModel.processRPCCalls functions true true data offset).1 ∧
    (RPCModel.processRPCCalls functions replicateToOwner rootIs data offset).2 = [] := by
  unfold RPCModel.processRPCCalls
  rw [if_neg (by simpa using h), if_pos ⟨rfl, rfl⟩]
  refine ⟨?_, rfl⟩
  show RPCModel.processLoopDenied functions data offset - offset =
    (RPCModel.processLoopOwner functions data offset).1 - offset
  rw [RPCModel.processLoopOwner_fst_eq_denied]

/-- Witness for C7: a two-call payload decoded without ownership consumes
the same six bytes as the permitted decode, and runs nothing. -/
theorem rpc_denied_decodes_but_never_executes_witness :
    (RPCModel.processRPCCalls
        [{ argBytes := fun _ _ => 2 }] false true [0, 9, 9, 0, 9, 9] 0).1 =
      (RPCModel.processRPCCalls
        [{ argBytes := fun _ _ => 2 }] true true [0, 9, 9, 0, 9, 9] 0).1 ∧
    (RPCModel.processRPCCalls
        [{ argBytes := fun _ _ => 2 }] false true [0, 9, 9, 0, 9, 9] 0).2 = [] :=
  rpc_denied_decodes_but_never_executes [{ argBytes := fun _ _ => 2 }]
    [0, 9, 9, 0, 9, 9] 0 false true (by simp)

namespace ChannelModel

theorem getAttributesLoop_spec {κ V D : Type} [DecidableEq κ] [DecidableEq D]
    (describe : κ → V → D) (values : List (κ × V)) (eligible : List κ)
    (lastDesc : List (κ × D))
    (hpres : ∀ n ∈ eligible,
      (PyDict.get values n).isSome ∧ (PyDict.get lastDesc n).isSome)
    (hnodup : eligible.Nodup) :
    ∃ finalDesc toSer,
      getAttributesLoop describe values eligible lastDesc =
        some (finalDesc, toSer) ∧
      List.map Prod.fst toSer =
        List.filter (descriptionChanged describe values lastDesc) eligible ∧
      ∀ n v, (n, v) ∈ toSer → PyDict.get values n = some v := by
  induction eligible generalizing lastDesc with
  | nil => exact ⟨lastDesc, [], rfl, rfl, by simp⟩
  | cons name rest ih =>
    obtain ⟨hv, hd⟩ := hpres name (List.mem_cons_self _ _)
    obtain ⟨value, hval⟩ := Option.isSome_iff_exists.mp hv
    obtain ⟨lastD, hlast⟩ := Option.isSome_iff_exists.mp hd
    simp only [List.nodup_cons] at hnodup
    by_cases hchg : describe name value = lastD
    · obtain ⟨fd, ts, hloop, hmap, hvals⟩ := ih lastDesc
        (fun n hn => hpres n (List.mem_cons_of_mem _ hn)) hnodup.2
      refine ⟨fd, ts, ?_, ?_, hvals⟩
      · simp only [getAttributesLoop, hval, hlast, if_pos hchg]
        exact hloop
      · rw [hmap]
        have hfalse : descriptionChanged describe values lastDesc name = false := by
          simp [descriptionChanged, hval, hlast, hchg]
        simp [List.filter, hfalse]
    · have hpres2 : ∀ n ∈ rest, (PyDict.get values n).isSome ∧
          (PyDict.get (PyDict.set lastDesc name (describe name value)) n).isSome := by
        intro n hn
        have hne : n ≠ name := fun hcon => hnodup.1 (hcon ▸ hn)
        rw [PyDict.get_set_other _ _ _ _ hne]
        exact hpres n (List.mem_cons_of_mem _ hn)
      obtain ⟨fd, ts, hloop, hmap, hvals⟩ := ih
        (PyDict.set lastDesc name (describe name value)) hpres2 hnodup.2
      refine ⟨fd, (name, value) :: ts, ?_, ?_, ?_⟩
      · simp only [getAttributesLoop, hval, hlast, if_neg hchg, hloop]
      · have hcongr : List.filter (descriptionChanged describe values
            (PyDict.set lastDesc name (describe name value))) rest =
            List.filter (descriptionChanged describe values lastDesc) rest := by
          refine List.filter_congr ?_
          intro n hn
          have hne : n ≠ name := fun hcon => hnodup.1 (hcon ▸ hn)
          simp [descriptionChanged, PyDict.get_set_other _ _ _ _ hne]
        have htrue : descriptionChanged describe values lastDesc name = true := by
          simp [descriptionChanged, hval, hlast, hchg]
        simp only [List.map_cons, hmap, hcongr, List.filter, htrue]
      · intro n v hmem
        rcases List.mem_cons.mp hmem with hmem | hmem
        · obtain ⟨h1, h2⟩ := Prod.mk.injEq .. ▸ hmem
          exact h1 ▸ h2 ▸ hval
        · exact hvals n v hmem

end ChannelModel

/-- C4: a `ServerReplicableChannel.get_attributes` call excludes every
eligible attribute whose description matches the last transmitted one,
returns `None` (no wire update) exactly when no eligible description
changed, and otherwise serialises exactly the changed attributes — so the
updates emitted equal the descriptions that changed. -/
theorem channel_get_attributes_dedup {κ V D : Type} [DecidableEq κ] [DecidableEq D]
    (pack : List (κ × V) → List Nat) (describe : κ → V → D) (eligible : List κ)
    (values : List (κ × V)) (lastDesc : List (κ × D))
    (hpres : ∀ n ∈ eligible,
      (PyDict.get values n).isSome ∧ (PyDict.get lastDesc n).isSome)
    (hnodup : eligible.Nodup) :
    ∃ r, ChannelModel.getAttributes pack describe eligible values lastDesc =
        some r ∧
      (r.data = Option.none ↔ ∀ n ∈ eligible,
        ChannelModel.descriptionChanged describe values lastDesc n = false) ∧
      (∀ n ∈ eligible,
        ChannelModel.descriptionChanged describe values lastDesc n = false →
        n ∉ List.map Prod.fst r.toSerialise) ∧
      r.toSerialise.length = (List.filter
        (ChannelModel.descriptionChanged describe values lastDesc) eligible).length := by
  obtain ⟨fd, ts, hloop, hmap, hvals⟩ :=
    ChannelModel.getAttributesLoop_spec describe values eligible lastDesc hpres hnodup
  refine ⟨{ lastDescriptions := fd, toSerialise := ts,
            data := if ts.isEmpty then Option.none else some (pack ts) }, ?_, ?_, ?_, ?_⟩
  · simp only [ChannelModel.getAttributes, hloop]
  · constructor
    · intro hdata n hn
      by_cases hempty : ts.isEmpty
      · have : List.filter (ChannelModel.descriptionChanged describe values lastDesc)
            eligible = [] := by
          rw [← hmap]
          simpa [List.isEmpty_iff] using hempty
        by_contra hcon
        have : n ∈ (List.filter (ChannelModel.descriptionChanged describe values lastDesc)
            eligible) := List.mem_filter.mpr ⟨hn, by simpa using hcon⟩
        simp_all
      · simp [hempty] at hdata
    · intro hall
      have : List.filter (ChannelModel.descriptionChanged describe values lastDesc)
          eligible = [] := List.filter_eq_nil_iff.mpr (by
        intro n hn
        simp [hall n hn])
      have hts : ts = [] := by
        have := hmap.trans this
        exact List.map_eq_nil_iff.mp this
      simp [hts]
  · intro n hn hfalse hcon
    rw [hmap] at hcon
    have := List.of_mem_filter hcon
    simp [hfalse] at this
  · rw [← hmap, List.length_map]

/-- Witness for C4: one attribute with an unchanged description yields no
payload; its name is excluded and zero updates are emitted. -/
theorem channel_get_attributes_dedup_witness :
    ∃ r, ChannelModel.getAttributes (fun _ => [0]) (fun (_ : Nat) (v : Nat) => v)
        [5] [(5, 3)] [(5, 3)] = some r ∧
      (r.data = Option.none ↔ ∀ n ∈ [5],
        ChannelModel.descriptionChanged (fun _ v => v) [(5, 3)] [(5, 3)] n = false) ∧
      (∀ n ∈ [5],
        ChannelModel.descriptionChanged (fun _ v => v) [(5, 3)] [(5, 3)] n = false →
        n ∉ List.map Prod.fst r.toSerialise) ∧
      r.toSerialise.length = (List.filter
        (ChannelModel.descriptionChanged (fun _ v => v) [(5, 3)] [(5, 3)]) [5]).length :=
  channel_get_attributes_dedup (fun _ => [0]) (fun _ v => v) [5] [(5, 3)] [(5, 3)]
    (by decide) (by decide)

/-- Counterexample to C2 as stated: correcting move 1 on a client at move 2
replays the stored inputs 1 and 2 (`range(move_id, self.move_id + 1)` is
inclusive at `move_id`), not only the inputs with id strictly greater
than 1 — the code result differs from the claim's replay-only-newer
state. -/
theorem client_correct_move_replays_corrected_move_itself :
    (ReconModel.clientCorrectMove ReconModel.digitInputs
        ReconModel.sampleController 1 ⟨0, 0, 0⟩ 0 ⟨0, 0, 0⟩ 0).bind
        (fun c => c.pawn) ≠
      ReconModel.reconcileAsClaimed ReconModel.digitInputs
        ReconModel.sampleController 1 ⟨0, 0, 0⟩ 0 ⟨0, 0, 0⟩ 0 := by
  have hrange1 : List.range' 1 2 = [1, 2] := by decide
  have hrange2 : List.range' 2 1 = [2] := by decide
  simp only [ReconModel.clientCorrectMove, ReconModel.reconcileAsClaimed,
    ReconModel.sampleController, ReconModel.digitInputs,
    ReconModel.applyCorrection, PyDict.get, hrange1, hrange2,
    List.foldl_cons, List.foldl_nil, Option.bind]
  norm_num

/-- C2 (amended): after `client_correct_move(move_id, ...)` with a pawn
present and every id in `[move_id, self.move_id]` stored, the pawn state
equals the corrected base state with every stored input of id greater than
or EQUAL to `move_id` replayed in order, and `latest_correction_id` becomes
the last replayed id (`self.move_id` when the range is non-empty). -/
theorem client_correct_move_replays_from_move_id {σ : Type}
    (processInputs : ReconModel.PawnState → σ → ReconModel.PawnState)
    (c : ReconModel.ControllerState σ) (moveId : Nat)
    (position : ReconModel.Vec3) (yaw : ℚ) (velocity : ReconModel.Vec3)
    (angularYaw : ℚ) (pawn0 : ReconModel.PawnState) (f : Nat → σ)
    (hpawn : c.pawn = some pawn0)
    (hstates : ∀ i, moveId ≤ i → i ≤ c.moveId →
      PyDict.get c.sentStates i = some (f i)) :
    ReconModel.clientCorrectMove processInputs c moveId position yaw velocity
        angularYaw =
      some { c with
        pawn := some (List.foldl (fun p i => processInputs p (f i))
          (ReconModel.applyCorrection pawn0 position yaw velocity angularYaw)
          (List.range' moveId (c.moveId + 1 - moveId))),
        latestCorrectionId := if moveId ≤ c.moveId then c.moveId else moveId } := by
  have hfold : ∀ (ids : List Nat) (p : ReconModel.PawnState),
      (∀ i ∈ ids, PyDict.get c.sentStates i = some (f i)) →
      List.foldl (fun (acc : Option ReconModel.PawnState) i =>
        match acc with
        | Option.none => Option.none
        | some p2 =>
          match PyDict.get c.sentStates i with
          | Option.none => Option.none
          | some inputState => some (processInputs p2 inputState))
        (some p) ids =
      some (List.foldl (fun p2 i => processInputs p2 (f i)) p ids) := by
    intro ids
    induction ids with
    | nil => intro p _; rfl
    | cons i rest ih =>
      intro p hmem
      have hi := hmem i (List.mem_cons_self _ _)
      simp only [List.foldl_cons, hi]
      exact ih _ (fun j hj => hmem j (List.mem_cons_of_mem _ hj))
  have harg : ∀ i ∈ List.range' moveId (c.moveId + 1 - moveId),
      PyDict.get c.sentStates i = some (f i) := by
    intro i hi
    rcases List.mem_range'_1.mp hi with ⟨h1, h2⟩
    exact hstates i h1 (by omega)
  unfold ReconModel.clientCorrectMove
  rw [hpawn]
  dsimp only
  rw [hfold (List.range' moveId (c.moveId + 1 - moveId))
    (ReconModel.applyCorrection pawn0 position yaw velocity angularYaw) harg]

/-- Witness for the amended C2: correcting move 1 at `move_id = 2` replays
inputs 1 and 2 onto the corrected base state. -/
theorem client_correct_move_replays_from_move_id_witness :
    ReconModel.clientCorrectMove ReconModel.digitInputs
        ReconModel.sampleController 1 ⟨0, 0, 0⟩ 0 ⟨0, 0, 0⟩ 0 =
      some { ReconModel.sampleController with
        pawn := some (List.foldl
          (fun p i => ReconModel.digitInputs p ((fun i => i) i))
          (ReconModel.applyCorrection
            ⟨⟨0, 0, 0⟩, ⟨0, 0, 0⟩, ⟨0, 0, 0⟩, ⟨0, 0, 0⟩⟩ ⟨0, 0, 0⟩ 0 ⟨0, 0, 0⟩ 0)
          (List.range' 1 (ReconModel.sampleController.moveId + 1 - 1))),
        latestCorrectionId :=
          if 1 ≤ ReconModel.sampleController.moveId
          then ReconModel.sampleController.moveId else 1 } :=
  client_correct_move_replays_from_move_id ReconModel.digitInputs
    ReconModel.sampleController 1 ⟨0, 0, 0⟩ 0 ⟨0, 0, 0⟩ 0
    ⟨⟨0, 0, 0⟩, ⟨0, 0, 0⟩, ⟨0, 0, 0⟩, ⟨0, 0, 0⟩⟩ (fun i => i) rfl
    (by
      intro i h1 h2
      have h3 : i ≤ 2 := h2
      interval_cases i
      · rfl
      · rfl)

namespace PyDict

variable {κ : Type} [DecidableEq κ]

theorem get_filter (m : List (κ × α)) (k : κ) (p : κ × α → Bool)
    (hp : ∀ v, p (k, v) = true) :
    get (List.filter p m) k = get m k := by
  induction m with
  | nil => simp
  | cons hd tl ih =>
    obtain ⟨k2, v2⟩ := hd
    by_cases h : k2 = k
    · subst h
      simp [List.filter, hp v2, get]
    · by_cases hkeep : p (k2, v2)
      · simp [List.filter, hkeep, get, h, ih]
      · simp [List.filter, hkeep, get, h, ih]

end PyDict

namespace ValidateModel

theorem floor_two_div_pi : ⌊(2 : ℚ) / piFloat⌋ = 0 := by
  rw [Int.floor_eq_iff]
  constructor
  · norm_num [piFloat]
  · norm_num [piFloat]

theorem floor_two_div_two_pi : ⌊(2 : ℚ) / (2 * piFloat)⌋ = 0 := by
  rw [Int.floor_eq_iff]
  constructor
  · norm_num [piFloat]
  · norm_num [piFloat]

theorem pymod_two_pi : pymod 2 piFloat = 2 := by
  unfold pymod
  rw [floor_two_div_pi]
  norm_num

end ValidateModel

/-- Counterexample to C5 as stated: with zero position error and a raw yaw
error of 2 radians the claim's minimum wrap-around yaw error squared is 4,
far above `(5 degrees)^2`, yet `server_validate_last_move` sends no
correction — the source computes `min(d, pi - d)` of the already squared
`d = ((client_yaw - yaw) % pi)**2`, which here is the negative
`pi - 4` and never exceeds the bound. -/
theorem server_validate_misses_large_yaw_error :
    ValidateModel.serverValidateLastMove ValidateModel.sampleState =
      some (⟨some ValidateModel.samplePawn, Option.none, [], 0⟩, Option.none) ∧
    ValidateModel.shouldCorrectAsClaimed ValidateModel.samplePawn
      ValidateModel.sampleMove = true := by
  constructor
  · unfold ValidateModel.serverValidateLastMove ValidateModel.sampleState
      ValidateModel.samplePawn ValidateModel.sampleMove
    norm_num [PyDict.get, PyDict.pop, ValidateModel.Vec3Q.sub,
      ValidateModel.Vec3Q.lengthSquared, ValidateModel.MAX_POSITION_ERROR_SQUARED,
      ValidateModel.MAX_ORIENTATION_ANGLE_ERROR_SQUARED, ValidateModel.pymod_two_pi]
    intro _
    norm_num [ValidateModel.piFloat]
  · unfold ValidateModel.shouldCorrectAsClaimed ValidateModel.samplePawn
      ValidateModel.sampleMove
    norm_num [ValidateModel.Vec3Q.sub, ValidateModel.Vec3Q.lengthSquared,
      ValidateModel.MAX_POSITION_ERROR_SQUARED,
      ValidateModel.MAX_ORIENTATION_ANGLE_ERROR_SQUARED, ValidateModel.pymod,
      ValidateModel.floor_two_div_two_pi]
    rw [min_eq_left (by norm_num [ValidateModel.piFloat])]
    norm_num [ValidateModel.piFloat]

/-- C5 (amended): for a validated move (pawn present, pending move id with a
stored client state), the server sends `client_correct_move(move_id,
position, yaw, velocity, angular_yaw)` and sets `last_corrected_move_id` to
`move_id` if and only if the client has caught up with the last correction
AND (the squared position error exceeds `MAX_POSITION_ERROR_SQUARED`, or
`min(d, pi - d)` of the SQUARED folded yaw difference
`d = ((client_yaw - yaw) % pi)**2` exceeds
`MAX_ORIENTATION_ANGLE_ERROR_SQUARED`); otherwise `last_corrected_move_id`
is unchanged. -/
theorem server_validate_sends_correction_iff (s : ValidateModel.ValidateState)
    (pawn : ValidateModel.PawnSim) (clientState : ValidateModel.MoveState)
    (moveId : Nat)
    (hpawn : s.pawn = some pawn)
    (hpending : s.pendingValidationMoveId = some moveId)
    (hstate : PyDict.get s.clientMovesStates moveId = some clientState) :
    ∃ s2 corr,
      ValidateModel.serverValidateLastMove s = some (s2, corr) ∧
      ((corr ≠ Option.none) ↔
        (s.lastCorrectedMoveId ≤ clientState.clientLastCorrection ∧
         ((clientState.clientPosition.sub pawn.position).lengthSquared >
            ValidateModel.MAX_POSITION_ERROR_SQUARED ∨
          min ((ValidateModel.pymod (clientState.clientYaw - pawn.yaw)
              ValidateModel.piFloat) ^ 2)
            (ValidateModel.piFloat - (ValidateModel.pymod
              (clientState.clientYaw - pawn.yaw) ValidateModel.piFloat) ^ 2) >
            ValidateModel.MAX_ORIENTATION_ANGLE_ERROR_SQUARED))) ∧
      (corr ≠ Option.none →
        corr = some ⟨moveId, pawn.position, pawn.yaw, pawn.velocity,
          pawn.angularYaw⟩ ∧
        s2.lastCorrectedMoveId = moveId) ∧
      (corr = Option.none →
        s2.lastCorrectedMoveId = s.lastCorrectedMoveId) := by
  unfold ValidateModel.serverValidateLastMove
  rw [hpawn, hpending]
  dsimp only
  rw [PyDict.get_filter _ _ _ (fun v => by simp), hstate]
  dsimp only
  by_cases h1 : clientState.clientLastCorrection < s.lastCorrectedMoveId
  · rw [if_pos h1]
    refine ⟨_, Option.none, rfl, ?_, by simp, by intro; rfl⟩
    simp only [ne_eq, not_true_eq_false, false_iff, not_and]
    intro h2
    omega
  · rw [if_neg h1]
    by_cases h2 : (clientState.clientPosition.sub pawn.position).lengthSquared >
        ValidateModel.MAX_POSITION_ERROR_SQUARED ∨
      min ((ValidateModel.pymod (clientState.clientYaw - pawn.yaw)
          ValidateModel.piFloat) ^ 2)
        (ValidateModel.piFloat - (ValidateModel.pymod
          (clientState.clientYaw - pawn.yaw) ValidateModel.piFloat) ^ 2) >
        ValidateModel.MAX_ORIENTATION_ANGLE_ERROR_SQUARED
    · rw [if_pos h2]
      refine ⟨_, _, rfl, ?_, fun _ => ⟨rfl, rfl⟩, fun hcon => absurd hcon (by simp)⟩
      exact iff_of_true (by simp) ⟨Nat.not_lt.mp h1, h2⟩
    · rw [if_neg h2]
      refine ⟨_, Option.none, rfl, ?_, by simp, fun _ => rfl⟩
      exact iff_of_false (by simp) (fun hcon => h2 hcon.2)

/-- Witness for the amended C5: a pure position error of 1 (above 0.5)
triggers a correction carrying the server state for move 1. -/
theorem server_validate_sends_correction_iff_witness :
    ∃ s2 corr,
      ValidateModel.serverValidateLastMove
        ⟨some ValidateModel.samplePawn, some 1,
         [(1, ⟨⟨0, 1, 0⟩, 0, 0⟩)], 0⟩ = some (s2, corr) ∧
      ((corr ≠ Option.none) ↔
        ((0 : Nat) ≤ (0 : Nat) ∧
         (((⟨⟨0, 1, 0⟩, 0, 0⟩ : ValidateModel.MoveState).clientPosition.sub
            ValidateModel.samplePawn.position).lengthSquared >
            ValidateModel.MAX_POSITION_ERROR_SQUARED ∨
          min ((ValidateModel.pymod ((0 : ℚ) - ValidateModel.samplePawn.yaw)
              ValidateModel.piFloat) ^ 2)
            (ValidateModel.piFloat - (ValidateModel.pymod
              ((0 : ℚ) - ValidateModel.samplePawn.yaw)
              ValidateModel.piFloat) ^ 2) >
            ValidateModel.MAX_ORIENTATION_ANGLE_ERROR_SQUARED))) ∧
      (corr ≠ Option.none →
        corr = some ⟨1, ValidateModel.samplePawn.position,
          ValidateModel.samplePawn.yaw, ValidateModel.samplePawn.velocity,
          ValidateModel.samplePawn.angularYaw⟩ ∧
        s2.lastCorrectedMoveId = 1) ∧
      (corr = Option.none → s2.lastCorrectedMoveId = 0) :=
  server_validate_sends_correction_iff
    ⟨some ValidateModel.samplePawn, some 1, [(1, ⟨⟨0, 1, 0⟩, 0, 0⟩)], 0⟩
    ValidateModel.samplePawn ⟨⟨0, 1, 0⟩, 0, 0⟩ 1 rfl rfl rfl

namespace PyDict

variable {κ : Type} [DecidableEq κ]

theorem mem_of_get_eq_some (m : List (κ × α)) (k : κ) (v : α)
    (h : get m k = some v) : (k, v) ∈ m := by
  induction m with
  | nil => simp [get] at h
  | cons hd tl ih =>
    obtain ⟨k2, v2⟩ := hd
    by_cases h2 : k2 = k
    · subst h2
      simp only [get] at h
      simp only [if_true] at h
      cases h
      exact List.mem_cons_self _ _
    · simp only [get, if_neg h2] at h
      exact List.mem_cons_of_mem _ (ih h)

theorem set_mem_cases (m : List (κ × α)) (k : κ) (v : α) (kv : κ × α)
    (h : kv ∈ set m k v) : kv = (k, v) ∨ kv ∈ m := by
  induction m with
  | nil => simpa [set] using h
  | cons hd tl ih =>
    obtain ⟨k2, v2⟩ := hd
    by_cases h2 : k2 = k
    · subst h2
      rcases List.mem_cons.mp (by simpa [set] using h) with hh | hh
      · exact Or.inl hh
      · exact Or.inr (List.mem_cons_of_mem _ hh)
    · rcases List.mem_cons.mp (by simpa [set, h2] using h) with hh | hh
      · exact Or.inr (hh ▸ List.mem_cons_self _ _)
      · rcases ih hh with hh2 | hh2
        · exact Or.inl hh2
        · exact Or.inr (List.mem_cons_of_mem _ hh2)

theorem nodup_set (m : List (κ × α)) (k : κ) (v : α)
    (hnodup : (List.map Prod.fst m).Nodup) :
    (List.map Prod.fst (set m k v)).Nodup := by
  induction m with
  | nil => simp [set]
  | cons hd tl ih =>
    obtain ⟨k2, v2⟩ := hd
    simp only [List.map_cons, List.nodup_cons] at hnodup
    by_cases h : k2 = k
    · subst h
      simp only [set]
      simp only [if_true, List.map_cons, List.nodup_cons]
      exact hnodup
    · simp only [set, if_neg h, List.map_cons, List.nodup_cons]
      refine ⟨?_, ih hnodup.2⟩
      intro hcon
      rcases List.mem_map.mp hcon with ⟨kv, hkv, hfst⟩
      rcases set_mem_cases tl k v kv hkv with hmem | hmem
      · exact h (by rw [hmem] at hfst; exact hfst.symm ▸ rfl)
      · exact hnodup.1 (List.mem_map.mpr ⟨kv, hmem, hfst⟩)

end PyDict

set_option maxRecDepth 1000000 in
set_option maxHeartbeats 4000000 in
/-- C8: after 257 `queue_packet` calls the local sequence counter has
wrapped past 255 back to 1 and an outstanding entry is stored under the
wrapped sequence 0; receiving an acknowledgement with ack base 0 removes
that entry and invokes its `on_ack` callback. -/
theorem sequence_wrap_ack_clears_entry :
    (List.foldl (fun st _ => ConnModel.queuePacket st [ConnModel.basicPacket])
        ConnModel.initialConnState (List.replicate 257 0)).localSequence = 1 ∧
    PyDict.hasKey (List.foldl
        (fun st _ => ConnModel.queuePacket st [ConnModel.basicPacket])
        ConnModel.initialConnState (List.replicate 257 0)).requestedAck 0 = true ∧
    PyDict.hasKey (ConnModel.updateReliableInformation
        (List.foldl (fun st _ => ConnModel.queuePacket st [ConnModel.basicPacket])
          ConnModel.initialConnState (List.replicate 257 0)) 0
        (List.replicate 32 false)).1.requestedAck 0 = false ∧
    (ConnModel.updateReliableInformation
        (List.foldl (fun st _ => ConnModel.queuePacket st [ConnModel.basicPacket])
          ConnModel.initialConnState (List.replicate 257 0)) 0
        (List.replicate 32 false)).2.acked = [(0, [ConnModel.basicPacket])] := by
  decide

namespace PyDict

theorem not_mem_of_get_eq_none {κ : Type} [DecidableEq κ] {α : Type}
    (m : List (κ × α)) (k : κ) (h : get m k = none) :
    k ∉ List.map Prod.fst m := by
  induction m with
  | nil => simp
  | cons hd tl ih =>
    obtain ⟨k2, v2⟩ := hd
    by_cases h2 : k2 = k
    · subst h2
      simp only [get] at h
      simp only [if_true] at h
      cases h
    · simp only [get, if_neg h2] at h
      simp only [List.map_cons, List.mem_cons]
      exact fun hcon => hcon.elim (fun he => h2 he.symm) (fun hm => ih h hm)

theorem get_pop_none {κ : Type} [DecidableEq κ] {α : Type}
    (m : List (κ × α)) (k k2 : κ) (h : get m k = none) :
    get (pop m k2) k = none :=
  get_eq_none_of_not_mem _ _ (fun hcon =>
    not_mem_of_get_eq_none m k h
      (List.Sublist.subset ((pop_sublist m k2).map Prod.fst) hcon))

end PyDict

namespace ConnModel

theorem popAck_phase12Inv (st0 : ConnState) (s : Nat) (entry : PacketCollection)
    (x : ConnState × UpdateEvents) (k : Nat) (hk : k ≠ s)
    (h : Phase12Inv st0 s entry x) :
    Phase12Inv st0 s entry (popAck x.1 x.2 k) := by
  obtain ⟨h1, h2, h3, h4, h5, h6, h7, h8, h9⟩ := h
  unfold popAck
  cases hget : PyDict.get x.1.requestedAck k with
  | none => exact ⟨h1, h2, h3, h4, h5, h6, h7, h8, h9⟩
  | some pkt =>
    dsimp only
    by_cases htag : ({ x.1 with
        requestedAck := PyDict.pop x.1.requestedAck k } :
        ConnState).taggedThrottleSequence = some k
    · rw [if_pos htag]
      refine ⟨?_, ?_, ?_, ?_, h5, h6, h7, ?_, ?_⟩
      · simpa [stopThrottling, PyDict.get_pop_other _ _ _ (Ne.symm hk)] using h1
      · simpa [stopThrottling] using h2
      · simpa [stopThrottling] using h3
      · simp [stopThrottling]
      · simpa [stopThrottling] using PyDict.nodup_pop _ _ h8
      · simpa [stopThrottling] using (PyDict.pop_length_le x.1.requestedAck k).trans h9
    · rw [if_neg htag]
      refine ⟨?_, h2, h3, h4, h5, h6, h7, ?_, ?_⟩
      · simpa [PyDict.get_pop_other _ _ _ (Ne.symm hk)] using h1
      · exact PyDict.nodup_pop _ _ h8
      · exact (PyDict.pop_length_le x.1.requestedAck k).trans h9

theorem phase12_inv (st : ConnState) (ackBase s : Nat) (bits : List Bool)
    (entry : PacketCollection)
    (hmem : PyDict.get st.requestedAck s = some entry)
    (hstale : (ackBase : Int) - s ≥ 32)
    (hnodup : (List.map Prod.fst st.requestedAck).Nodup)
    (hedge : (ackBase : Int) - s = 32 → bits.getD 31 false = false)
    (hthr : st.throttlePending = false) :
    Phase12Inv st s entry (ackPhases st ackBase bits) := by
  unfold ackPhases
  have hbase : Phase12Inv st s entry (st, emptyEvents) :=
    ⟨hmem, rfl, rfl, hthr, rfl, rfl, rfl, hnodup, le_refl _⟩
  have hstep1 : Phase12Inv st s entry (List.foldl
      (fun (acc : ConnState × UpdateEvents) (relativeSequence : Nat) =>
        let absoluteSequence : Int := (ackBase : Int) - ((relativeSequence : Int) + 1)
        if bits.getD relativeSequence false ∧ 0 ≤ absoluteSequence ∧
            PyDict.hasKey acc.1.requestedAck absoluteSequence.toNat then
          popAck acc.1 acc.2 absoluteSequence.toNat
        else acc)
      (st, emptyEvents) (List.range 32)) := by
    refine List.foldlRecOn (List.range 32) _ (st, emptyEvents) hbase ?_
    intro x hx i hi
    by_cases hcond : bits.getD i false ∧ 0 ≤ (ackBase : Int) - ((i : Int) + 1) ∧
        PyDict.hasKey x.1.requestedAck ((ackBase : Int) - ((i : Int) + 1)).toNat
    · have hirange : i < 32 := List.mem_range.mp hi
      have hk : ((ackBase : Int) - ((i : Int) + 1)).toNat ≠ s := by
        intro hcon
        have habs : (ackBase : Int) - ((i : Int) + 1) = (s : Int) := by
          omega
        have hi31 : i = 31 := by omega
        have h32 : (ackBase : Int) - (s : Int) = 32 := by omega
        have := hedge h32
        rw [hi31] at hcond
        rw [this] at hcond
        exact Bool.false_ne_true hcond.1
      simp only [if_pos hcond]
      exact popAck_phase12Inv st s entry x _ hk hx
    · simp only [if_neg hcond]
      exact hx
  by_cases hbasekey : PyDict.hasKey (List.foldl
      (fun (acc : ConnState × UpdateEvents) (relativeSequence : Nat) =>
        let absoluteSequence : Int := (ackBase : Int) - ((relativeSequence : Int) + 1)
        if bits.getD relativeSequence false ∧ 0 ≤ absoluteSequence ∧
            PyDict.hasKey acc.1.requestedAck absoluteSequence.toNat then
          popAck acc.1 acc.2 absoluteSequence.toNat
        else acc)
      (st, emptyEvents) (List.range 32)).1.requestedAck ackBase
  · simp only [if_pos hbasekey]
    refine popAck_phase12Inv st s entry _ ackBase ?_ hstep1
    intro hcon
    omega
  · simp only [if_neg hbasekey]
    exact hstep1

theorem processDropped_events (lst : List (Nat × PacketCollection))
    (stA : ConnState) (evA : UpdateEvents) :
    (processDropped stA evA lst).2.1.notAcked =
      evA.notAcked ++ List.map (fun kv => (kv.1, relOf kv.2))
        (List.filter hasRel lst) ∧
    (processDropped stA evA lst).2.1.requeued =
      evA.requeued ++ List.map (fun kv => relOf kv.2) (List.filter hasRel lst) ∧
    (processDropped stA evA lst).2.1.consideredDropped =
      evA.consideredDropped ∧
    (processDropped stA evA lst).2.1.acked = evA.acked ∧
    (processDropped stA evA lst).1.bandwidth =
      stA.bandwidth + 500 * ((List.filter hasRel lst).length : ℚ) ∧
    (processDropped stA evA lst).1.throttlePending = stA.throttlePending ∧
    (processDropped stA evA lst).2.2 = lst.any hasRel := by
  induction lst generalizing stA evA with
  | nil =>
    refine ⟨by simp [processDropped], by simp [processDropped],
      by simp [processDropped], by simp [processDropped],
      by simp [processDropped], by simp [processDropped],
      by simp [processDropped]⟩
  | cons hd rest ih =>
    obtain ⟨k, e⟩ := hd
    by_cases hr : hasRel (k, e)
    · have hrel2 : toReliable e = some (relOf e) := by
        unfold toReliable relOf
        unfold hasRel relOf at hr
        simp only [Bool.not_eq_true'] at hr
        rw [if_neg (by simp [hr])]
      simp only [processDropped, hrel2]
      obtain ⟨i1, i2, i3, i4, i5, i6, i8⟩ := ih
        (queuePacket { stA with requestedAck := PyDict.pop stA.requestedAck k }
          (relOf e))
        ⟨evA.acked, evA.notAcked ++ [(k, relOf e)], evA.requeued ++ [relOf e],
         evA.consideredDropped⟩
      refine ⟨?_, ?_, by simpa using i3, by simpa using i4, ?_, ?_, ?_⟩
      · rw [i1]
        simp [List.filter, hr]
      · rw [i2]
        simp [List.filter, hr]
      · rw [i5]
        simp only [queuePacket, List.filter, hr, List.length_cons]
        push_cast
        ring
      · rw [i6]
        simp [queuePacket]
      · simp [List.any_cons, hr]
    · have hrel2 : toReliable e = Option.none := by
        unfold toReliable
        unfold hasRel relOf at hr
        simp only [Bool.not_eq_true', Bool.not_eq_false] at hr
        rw [if_pos (by simp [hr])]
      simp only [processDropped, hrel2]
      obtain ⟨i1, i2, i3, i4, i5, i6, i8⟩ := ih
        { stA with requestedAck := PyDict.pop stA.requestedAck k } evA
      have hfilter : List.filter hasRel ((k, e) :: rest) = List.filter hasRel rest := by
        simp [List.filter, hr]
      refine ⟨?_, ?_, by simpa using i3, by simpa using i4, ?_, ?_, ?_⟩
      · rw [i1, hfilter]
      · rw [i2, hfilter]
      · rw [i5, hfilter]
      · rw [i6]
      · rw [i8]
        simp [List.any_cons, hr]

theorem processDropped_absent (lst : List (Nat × PacketCollection))
    (stA : ConnState) (evA : UpdateEvents) (s : Nat)
    (habs : PyDict.get stA.requestedAck s = none)
    (hfresh : ∀ j, j < lst.length → (stA.localSequence + j + 1) % 256 ≠ s) :
    PyDict.get (processDropped stA evA lst).1.requestedAck s = none := by
  induction lst generalizing stA evA with
  | nil => exact habs
  | cons hd rest ih =>
    obtain ⟨k, e⟩ := hd
    have habs1 : PyDict.get (PyDict.pop stA.requestedAck k) s = none :=
      PyDict.get_pop_none _ _ _ habs
    cases hrel : toReliable e with
    | none =>
      simp only [processDropped, hrel]
      exact ih { stA with requestedAck := PyDict.pop stA.requestedAck k } evA
        habs1 (fun j hj => hfresh j (by simp; omega))
    | some rel =>
      simp only [processDropped, hrel]
      refine ih _ _ ?_ ?_
      · show PyDict.get (PyDict.set (PyDict.pop stA.requestedAck k)
          ((stA.localSequence + 1) % 256) rel) s = none
        rw [PyDict.get_set_other _ _ _ _ (Ne.symm (hfresh 0 (by simp)))]
        exact habs1
      · intro j hj
        show ((stA.localSequence + 1) % 256 + j + 1) % 256 ≠ s
        have := hfresh (j + 1) (by simp; omega)
        intro hcon
        apply this
        omega

theorem processDropped_removes (lst : List (Nat × PacketCollection))
    (stA : ConnState) (evA : UpdateEvents) (s : Nat)
    (hs : s ∈ List.map Prod.fst lst)
    (hnodupM : (List.map Prod.fst stA.requestedAck).Nodup)
    (hfresh : ∀ j, j < lst.length → (stA.localSequence + j + 1) % 256 ≠ s) :
    PyDict.get (processDropped stA evA lst).1.requestedAck s = none := by
  induction lst generalizing stA evA with
  | nil => simp at hs
  | cons hd rest ih =>
    obtain ⟨k, e⟩ := hd
    by_cases hk : k = s
    · subst hk
      have habs1 : PyDict.get (PyDict.pop stA.requestedAck k) k = none :=
        PyDict.get_pop_self _ _ hnodupM
      cases hrel : toReliable e with
      | none =>
        simp only [processDropped, hrel]
        exact processDropped_absent rest _ evA k habs1
          (fun j hj => hfresh j (by simp; omega))
      | some rel =>
        simp only [processDropped, hrel]
        refine processDropped_absent rest _ _ k ?_ ?_
        · show PyDict.get (PyDict.set (PyDict.pop stA.requestedAck k)
            ((stA.localSequence + 1) % 256) rel) k = none
          rw [PyDict.get_set_other _ _ _ _ (Ne.symm (hfresh 0 (by simp)))]
          exact habs1
        · intro j hj
          show ((stA.localSequence + 1) % 256 + j + 1) % 256 ≠ k
          have := hfresh (j + 1) (by simp; omega)
          intro hcon
          apply this
          omega
    · have hs2 : s ∈ List.map Prod.fst rest := by
        simp only [List.map_cons, List.mem_cons] at hs
        rcases hs with hh | hh
        · exact absurd hh.symm hk
        · exact hh
      have hnodup1 : (List.map Prod.fst (PyDict.pop stA.requestedAck k)).Nodup :=
        PyDict.nodup_pop _ _ hnodupM
      cases hrel : toReliable e with
      | none =>
        simp only [processDropped, hrel]
        exact ih { stA with requestedAck := PyDict.pop stA.requestedAck k } evA
          hs2 hnodup1 (fun j hj => hfresh j (by simp; omega))
      | some rel =>
        simp only [processDropped, hrel]
        refine ih _ _ hs2 ?_ ?_
        · show (List.map Prod.fst (PyDict.set (PyDict.pop stA.requestedAck k)
            ((stA.localSequence + 1) % 256) rel)).Nodup
          exact PyDict.nodup_set _ _ _ hnodup1
        · intro j hj
          show ((stA.localSequence + 1) % 256 + j + 1) % 256 ≠ s
          have := hfresh (j + 1) (by simp; omega)
          intro hcon
          apply this
          omega

end ConnModel

/-- Counterexample to C3 as stated: entry 200 is `(5 - 200) mod 256 = 61`
sequences behind ack base 5 in wrap-around distance — more than the
32-entry window — yet the source's plain difference `5 - 200` is negative,
so `_update_reliable_information` does not consider it dropped: the entry
stays outstanding, no `on_not_ack` runs, nothing is requeued and the
connection does not throttle. -/
theorem connection_misses_wrapped_stale_entry :
    PyDict.hasKey (ConnModel.updateReliableInformation ConnModel.staleWrapState
        5 (List.replicate 32 false)).1.requestedAck 200 = true ∧
    (ConnModel.updateReliableInformation ConnModel.staleWrapState 5
        (List.replicate 32 false)).2.notAcked = [] ∧
    (ConnModel.updateReliableInformation ConnModel.staleWrapState 5
        (List.replicate 32 false)).2.requeued = [] ∧
    (ConnModel.updateReliableInformation ConnModel.staleWrapState 5
        (List.replicate 32 false)).2.consideredDropped = [] ∧
    (ConnModel.updateReliableInformation ConnModel.staleWrapState 5
        (List.replicate 32 false)).1.throttlePending = false := by
  decide

/-- C3 (amended): an outstanding entry is considered lost when the PLAIN
integer difference `ack_base - sequence` is at least 32 (no wrap-around);
such an entry (not otherwise acknowledged) appears in `considered_dropped`
and is removed, its reliable sub-collection (when non-empty) receives
`on_not_ack` and is requeued as a fresh collection through `queue_packet`
(which first grows the bandwidth estimate by `packet_growth` per requeued
collection), and if at least one reliable entry was lost while no throttle
was pending, the grown bandwidth estimate is halved and the connection
enters `throttle_pending`. -/
theorem connection_drops_plainly_stale_entries (st : ConnModel.ConnState)
    (ackBase s : Nat) (bits : List Bool) (entry : ConnModel.PacketCollection)
    (hmem : PyDict.get st.requestedAck s = some entry)
    (hstale : (ackBase : Int) - s ≥ 32)
    (hnodup : (List.map Prod.fst st.requestedAck).Nodup)
    (hedge : (ackBase : Int) - s = 32 → bits.getD 31 false = false)
    (hthr : st.throttlePending = false)
    (hrel : ConnModel.relOf entry ≠ [])
    (hfresh : ∀ j, j < st.requestedAck.length →
      (st.localSequence + j + 1) % 256 ≠ s) :
    s ∈ (ConnModel.updateReliableInformation st ackBase bits).2.consideredDropped ∧
    (s, ConnModel.relOf entry) ∈
      (ConnModel.updateReliableInformation st ackBase bits).2.notAcked ∧
    ConnModel.relOf entry ∈
      (ConnModel.updateReliableInformation st ackBase bits).2.requeued ∧
    PyDict.get (ConnModel.updateReliableInformation st ackBase bits).1.requestedAck
      s = none ∧
    (ConnModel.updateReliableInformation st ackBase bits).1.throttlePending = true ∧
    (ConnModel.updateReliableInformation st ackBase bits).1.bandwidth =
      (st.bandwidth + 500 *
        ((ConnModel.updateReliableInformation st ackBase bits).2.requeued.length : ℚ))
        / 2 := by
  obtain ⟨p1, p2, p3, p4, p5, p6, p7, p8, p9⟩ :=
    ConnModel.phase12_inv st ackBase s bits entry hmem hstale hnodup hedge hthr
  set x := ConnModel.ackPhases st ackBase bits with hx
  set D := List.filter (fun kv => decide ((ackBase : Int) - (kv.1 : Nat) ≥ 32))
    x.1.requestedAck with hD
  set ev0 : ConnModel.UpdateEvents :=
    { x.2 with consideredDropped := List.map Prod.fst D } with hev0
  set y := ConnModel.processDropped x.1 ev0 D with hy
  have hr2 : (ConnModel.updateReliableInformation st ackBase bits).2 = y.2.1 := rfl
  have hr1 : (ConnModel.updateReliableInformation st ackBase bits).1 =
    if y.2.2 ∧ ¬ y.1.throttlePending then ConnModel.startThrottling y.1
    else y.1 := rfl
  obtain ⟨e1, e2, e3, e4, e5, e6, e7⟩ := ConnModel.processDropped_events D x.1 ev0
  rw [← hy] at e1 e2 e3 e4 e5 e6 e7
  have hmemD : (s, entry) ∈ D := by
    rw [hD]
    refine List.mem_filter.mpr ⟨PyDict.mem_of_get_eq_some _ _ _ p1, ?_⟩
    simpa using hstale
  have hhasRel : ConnModel.hasRel (s, entry) = true := by
    unfold ConnModel.hasRel
    dsimp only
    cases hE : ConnModel.relOf entry with
    | nil => exact absurd hE hrel
    | cons a l => rfl
  have hmissed : y.2.2 = true := by
    rw [e7]
    exact List.any_eq_true.mpr ⟨(s, entry), hmemD, hhasRel⟩
  have hthr3 : y.1.throttlePending = false := by
    rw [e6, p4]
  have hcond : y.2.2 ∧ ¬ y.1.throttlePending = true := ⟨hmissed, by simp [hthr3]⟩
  refine ⟨?_, ?_, ?_, ?_, ?_, ?_⟩
  · rw [hr2, e3, hev0]
    exact List.mem_map.mpr ⟨(s, entry), hmemD, rfl⟩
  · rw [hr2, e1, hev0]
    simp only [p5, List.nil_append]
    exact List.mem_map.mpr ⟨(s, entry),
      List.mem_filter.mpr ⟨hmemD, hhasRel⟩, rfl⟩
  · rw [hr2, e2, hev0]
    simp only [p6, List.nil_append]
    exact List.mem_map.mpr ⟨(s, entry),
      List.mem_filter.mpr ⟨hmemD, hhasRel⟩, rfl⟩
  · rw [hr1, if_pos hcond]
    show PyDict.get (ConnModel.startThrottling y.1).requestedAck s = none
    have : (ConnModel.startThrottling y.1).requestedAck = y.1.requestedAck := rfl
    rw [this, hy]
    refine ConnModel.processDropped_removes D x.1 ev0 s ?_ p8 ?_
    · exact List.mem_map.mpr ⟨(s, entry), hmemD, rfl⟩
    · intro j hj
      rw [p2]
      refine hfresh j (lt_of_lt_of_le hj ?_)
      calc D.length ≤ x.1.requestedAck.length := by
            rw [hD]; exact (List.filter_sublist _).length_le
        _ ≤ st.requestedAck.length := p9
  · rw [hr1, if_pos hcond]
    rfl
  · rw [hr1, if_pos hcond]
    show y.1.bandwidth / 2 = _
    rw [e5, p3, hr2, e2, hev0]
    simp only [p6, List.nil_append, List.length_map]

/-- Witness for the amended C3: with ack base 40 the entry at sequence 1 is
39 > 32 behind, is dropped, its reliable collection gets `on_not_ack` and is
requeued, and the connection throttles to the grown-then-halved bandwidth. -/
theorem connection_drops_plainly_stale_entries_witness :
    1 ∈ (ConnModel.updateReliableInformation ConnModel.staleState2 40
      (List.replicate 32 false)).2.consideredDropped ∧
    (1, ConnModel.relOf [ConnModel.basicPacket]) ∈
      (ConnModel.updateReliableInformation ConnModel.staleState2 40
        (List.replicate 32 false)).2.notAcked ∧
    ConnModel.relOf [ConnModel.basicPacket] ∈
      (ConnModel.updateReliableInformation ConnModel.staleState2 40
        (List.replicate 32 false)).2.requeued ∧
    PyDict.get (ConnModel.updateReliableInformation ConnModel.staleState2 40
      (List.replicate 32 false)).1.requestedAck 1 = none ∧
    (ConnModel.updateReliableInformation ConnModel.staleState2 40
      (List.replicate 32 false)).1.throttlePending = true ∧
    (ConnModel.updateReliableInformation ConnModel.staleState2 40
      (List.replicate 32 false)).1.bandwidth =
      (ConnModel.staleState2.bandwidth + 500 *
        ((ConnModel.updateReliableInformation ConnModel.staleState2 40
          (List.replicate 32 false)).2.requeued.length : ℚ)) / 2 :=
  connection_drops_plainly_stale_entries ConnModel.staleState2 40 1
    (List.replicate 32 false) [ConnModel.basicPacket] rfl (by decide)
    (by decide) (by decide) rfl (by decide) (by decide)

namespace FlagSerModel

theorem bitsOfByteAux_zero (k : Nat) :
    bitsOfByteAux 0 k = List.replicate k false := by
  induction k with
  | zero => rfl
  | succ k2 ih => simp [bitsOfByteAux, ih, List.replicate_succ]

theorem bitsOfByteAux_length (n k : Nat) : (bitsOfByteAux n k).length = k := by
  induction k generalizing n with
  | zero => rfl
  | succ k2 ih => simp [bitsOfByteAux, ih]

theorem bitsOfByteAux_byteOfBits (l : List Bool) (k : Nat) (h : l.length ≤ k) :
    bitsOfByteAux (byteOfBits l) k = l ++ List.replicate (k - l.length) false := by
  induction l generalizing k with
  | nil => simp [byteOfBits, bitsOfByteAux_zero]
  | cons b rest ih =>
    cases k with
    | zero => simp at h
    | succ k2 =>
      have hb : byteOfBits (b :: rest) =
          (if b then 1 else 0) + 2 * byteOfBits rest := by
        simp [byteOfBits]
      rw [bitsOfByteAux, hb]
      have hmod : ((if b then 1 else 0) + 2 * byteOfBits rest) % 2 =
          (if b then 1 else 0) := by
        cases b <;> simp <;> omega
      have hdiv : ((if b then 1 else 0) + 2 * byteOfBits rest) / 2 =
          byteOfBits rest := by
        cases b <;> simp <;> omega
      rw [hmod, hdiv, ih k2 (by simpa using h)]
      cases b <;> simp [List.length_cons]

theorem bytesOfBits_length (l : List Bool) :
    (bytesOfBits l).length = (l.length + 7) / 8 := by
  induction l using bytesOfBits.induct with
  | case1 => rw [bytesOfBits]; rfl
  | case2 b rest ih =>
    rw [bytesOfBits]
    simp only [List.length_cons, List.length_drop] at ih ⊢
    omega

theorem bitsOfBytes_append (a b : List Nat) :
    bitsOfBytes (a ++ b) = bitsOfBytes a ++ bitsOfBytes b := by
  simp [bitsOfBytes]

theorem bitsOfBytes_length (bs : List Nat) :
    (bitsOfBytes bs).length = 8 * bs.length := by
  induction bs with
  | nil => rfl
  | cons n rest ih =>
    simp [bitsOfBytes, bitsOfByteAux_length, List.length_cons] at ih ⊢
    omega

theorem take_bitsOfBytes_bytesOfBits (l : List Bool) :
    List.take l.length (bitsOfBytes (bytesOfBits l)) = l := by
  induction l using bytesOfBits.induct with
  | case1 => rw [bytesOfBits]; rfl
  | case2 b rest ih =>
    rw [bytesOfBits]
    have hbits : bitsOfBytes (byteOfBits (List.take 8 (b :: rest)) ::
        bytesOfBits (List.drop 8 (b :: rest))) =
        bitsOfByteAux (byteOfBits (List.take 8 (b :: rest))) 8 ++
        bitsOfBytes (bytesOfBits (List.drop 8 (b :: rest))) := by
      simp [bitsOfBytes]
    rw [hbits, bitsOfByteAux_byteOfBits _ 8 (by
      simpa using List.length_take_le 8 (b :: rest))]
    by_cases hlen : (b :: rest).length ≤ 8
    · have htake : List.take 8 (b :: rest) = b :: rest := List.take_of_length_le hlen
      have hdrop : List.drop 8 (b :: rest) = [] := List.drop_of_length_le hlen
      rw [htake, hdrop]
      simp [List.take_append_eq_append_take, List.take_of_length_le]
    · push_neg at hlen
      have htakelen : (List.take 8 (b :: rest)).length = 8 :=
        List.length_take_of_le (le_of_lt hlen)
      rw [htakelen]
      simp only [Nat.sub_self, List.replicate_zero, List.append_nil]
      have hlen2 : (b :: rest).length =
          (List.take 8 (b :: rest)).length + ((b :: rest).length - 8) := by
        rw [htakelen]
        omega
      rw [hlen2, List.take_append]
      rw [show (b :: rest).length - 8 = (List.drop 8 (b :: rest)).length from by
        simp, ih]
      exact List.take_append_drop 8 (b :: rest)

theorem bfPack_length (bits : List Bool) :
    (bfPack bits).length = 1 + (bits.length + 7) / 8 := by
  simp [bfPack, bytesOfBits_length]
  omega

theorem bfSize_bfPack (bits : List Bool) (rest : List Nat) :
    bfSize (bfPack bits ++ rest) = (bfPack bits).length := by
  simp [bfSize, bfPack, bytesOfBits_length]
  omega

theorem drop_bfSize_bfPack (bits : List Bool) (rest : List Nat) :
    List.drop (bfSize (bfPack bits ++ rest)) (bfPack bits ++ rest) = rest := by
  rw [bfSize_bfPack]
  exact List.drop_left _ _

theorem bfUnpack_bfPack (n : Nat) (bits : List Bool) (rest : List Nat)
    (h : bits.length = n) : bfUnpack n (bfPack bits ++ rest) = bits := by
  unfold bfUnpack bfPack
  have hdrop : List.drop 1 ((bits.length :: bytesOfBits bits) ++ rest) =
      bytesOfBits bits ++ rest := rfl
  rw [hdrop, bitsOfBytes_append]
  have hlen : n ≤ (bitsOfBytes (bytesOfBits bits)).length := by
    rw [bitsOfBytes_length, bytesOfBits_length, ← h]
    omega
  rw [List.append_assoc, List.take_append_of_le_length hlen, ← h,
    take_bitsOfBytes_bytesOfBits]

theorem packNonBool_content_length {κ V : Type} [DecidableEq κ]
    (nb : List (κ × Handler V)) (d : List (κ × FieldVal V)) :
    (packNonBool nb d).1.length = nb.length ∧
    (packNonBool nb d).2.1.length = nb.length := by
  induction nb with
  | nil => exact ⟨rfl, rfl⟩
  | cons hd rest ih =>
    obtain ⟨k, h2⟩ := hd
    unfold packNonBool
    cases PyDict.get d k with
    | none => exact ⟨by simp [ih.1], by simp [ih.2]⟩
    | some fv =>
      cases fv with
      | none => exact ⟨by simp [ih.1], by simp [ih.2]⟩
      | val v => exact ⟨by simp [ih.1], by simp [ih.2]⟩
      | bool b => exact ⟨by simp [ih.1], by simp [ih.2]⟩

theorem packBools_lengths {κ V : Type} [DecidableEq κ] (bn : List κ)
    (d : List (κ × FieldVal V)) :
    (packBools bn d).1.length = bn.length ∧
    (packBools bn d).2.1.length = bn.length ∧
    (packBools bn d).2.2.length = bn.length := by
  induction bn with
  | nil => exact ⟨rfl, rfl, rfl⟩
  | cons k rest ih =>
    unfold packBools
    cases PyDict.get d k with
    | none => exact ⟨by simp [ih.1], by simp [ih.2.1], by simp [ih.2.2]⟩
    | some fv =>
      cases fv with
      | none => exact ⟨by simp [ih.1], by simp [ih.2.1], by simp [ih.2.2]⟩
      | val v => exact ⟨by simp [ih.1], by simp [ih.2.1], by simp [ih.2.2]⟩
      | bool b => exact ⟨by simp [ih.1], by simp [ih.2.1], by simp [ih.2.2]⟩

theorem unpackNonBool_spec {κ V : Type} [DecidableEq κ]
    (nb : List (κ × Handler V)) (d : List (κ × FieldVal V))
    (tail : List Nat) (csSuffix nsSuffix : List Bool)
    (htyped : ∀ k h2, (k, h2) ∈ nb → ∀ b, PyDict.get d k ≠ some (FieldVal.bool b))
    (hlaws : ∀ k h2, (k, h2) ∈ nb → HandlerLaws h2) :
    unpackNonBool ((packNonBool nb d).1 ++ csSuffix)
        ((packNonBool nb d).2.1 ++ nsSuffix) nb
        (List.flatten (packNonBool nb d).2.2 ++ tail) =
      (pairsOf (List.map Prod.fst nb) d, tail) := by
  induction nb generalizing tail csSuffix nsSuffix with
  | nil =>
    simp only [packNonBool, List.nil_append, List.flatten_nil]
    cases csSuffix with
    | nil => rfl
    | cons c cs =>
      cases nsSuffix with
      | nil => rfl
      | cons n2 ns => rfl
  | cons hd rest ih =>
    obtain ⟨k, h2⟩ := hd
    have htyped2 : ∀ k2 h3, (k2, h3) ∈ rest →
        ∀ b, PyDict.get d k2 ≠ some (FieldVal.bool b) :=
      fun k2 h3 hm => htyped k2 h3 (List.mem_cons_of_mem _ hm)
    have hlaws2 : ∀ k2 h3, (k2, h3) ∈ rest → HandlerLaws h3 :=
      fun k2 h3 hm => hlaws k2 h3 (List.mem_cons_of_mem _ hm)
    cases hget : PyDict.get d k with
    | none =>
      simp only [packNonBool, hget, List.cons_append, unpackNonBool, if_neg]
      rw [ih tail csSuffix nsSuffix htyped2 hlaws2]
      simp [pairsOf, hget]
    | some fv =>
      cases fv with
      | bool b => exact absurd hget (htyped k h2 (List.mem_cons_self _ _) b)
      | none =>
        simp only [packNonBool, hget, List.cons_append, unpackNonBool, if_pos]
        rw [ih tail csSuffix nsSuffix htyped2 hlaws2]
        simp [pairsOf, hget]
      | val v =>
        obtain ⟨hup, hsz⟩ := hlaws k h2 (List.mem_cons_self _ _)
        simp only [packNonBool, hget, List.cons_append, unpackNonBool,
          List.flatten_cons, if_pos, if_neg, List.append_assoc]
        rw [hup v _, hsz v _, List.drop_left _ _]
        rw [ih tail csSuffix nsSuffix htyped2 hlaws2]
        simp [pairsOf, hget]

theorem unpackBools_spec {κ V : Type} [DecidableEq κ] (bn : List κ)
    (d : List (κ × FieldVal V)) (fsSuffix nsSuffix : List Bool)
    (htyped : ∀ k ∈ bn, ∀ v, PyDict.get d k ≠ some (FieldVal.val v)) :
    unpackBools (V := V) (packBools bn d).2.2 bn
        ((packBools bn d).1 ++ fsSuffix) ((packBools bn d).2.1 ++ nsSuffix) =
      pairsOf bn d := by
  induction bn generalizing fsSuffix nsSuffix with
  | nil => simp [packBools, unpackBools, pairsOf]
  | cons k rest ih =>
    have htyped2 : ∀ k2 ∈ rest, ∀ v, PyDict.get d k2 ≠ some (FieldVal.val v) :=
      fun k2 hm v => htyped k2 (List.mem_cons_of_mem _ hm) v
    cases hget : PyDict.get d k with
    | none =>
      simp only [packBools, hget, List.cons_append, unpackBools, if_neg]
      rw [ih fsSuffix nsSuffix htyped2]
      simp [pairsOf, hget]
    | some fv =>
      cases fv with
      | val v => exact absurd hget (htyped k (List.mem_cons_self _ _) v)
      | none =>
        simp only [packBools, hget, List.cons_append, unpackBools, if_pos]
        rw [ih fsSuffix nsSuffix htyped2]
        simp [pairsOf, hget]
      | bool b =>
        simp only [packBools, hget, List.cons_append, unpackBools, if_pos]
        rw [ih fsSuffix nsSuffix htyped2]
        simp [pairsOf, hget]

end FlagSerModel

namespace PyDict

theorem get_append {κ : Type} [DecidableEq κ] {α : Type}
    (a b : List (κ × α)) (k : κ) :
    get (a ++ b) k = match get a k with
      | some v => some v
      | none => get b k := by
  induction a with
  | nil => simp [get]
  | cons hd tl ih =>
    obtain ⟨k2, v2⟩ := hd
    by_cases h : k2 = k
    · simp [get, h]
    · simp [get, h, ih]

end PyDict

namespace FlagSerModel

theorem get_pairsOf_not_mem {κ V : Type} [DecidableEq κ] (keys : List κ)
    (d : List (κ × FieldVal V)) (k : κ) (hk : k ∉ keys) :
    PyDict.get (pairsOf keys d) k = none := by
  induction keys with
  | nil => rfl
  | cons k2 rest ih =>
    have hne : k2 ≠ k := fun hcon => hk (hcon ▸ List.mem_cons_self _ _)
    have hk2 : k ∉ rest := fun hcon => hk (List.mem_cons_of_mem _ hcon)
    cases hget : PyDict.get d k2 with
    | none =>
      simp only [pairsOf, List.filterMap_cons, hget, Option.map_none]
      exact ih hk2
    | some fv =>
      simp only [pairsOf, List.filterMap_cons, hget, Option.map_some]
      simp only [PyDict.get, if_neg hne]
      exact ih hk2

theorem get_pairsOf_mem {κ V : Type} [DecidableEq κ] (keys : List κ)
    (d : List (κ × FieldVal V)) (k : κ) (hk : k ∈ keys) (hnodup : keys.Nodup) :
    PyDict.get (pairsOf keys d) k = PyDict.get d k := by
  induction keys with
  | nil => simp at hk
  | cons k2 rest ih =>
    simp only [List.nodup_cons] at hnodup
    by_cases heq : k2 = k
    · subst heq
      cases hget : PyDict.get d k2 with
      | none =>
        simp only [pairsOf, List.filterMap_cons, hget, Option.map_none]
        exact get_pairsOf_not_mem rest d k2 hnodup.1
      | some fv =>
        simp only [pairsOf, List.filterMap_cons, hget, Option.map_some]
        simp [PyDict.get]
    · have hk2 : k ∈ rest := by
        rcases List.mem_cons.mp hk with hh | hh
        · exact absurd hh.symm heq
        · exact hh
      cases hget : PyDict.get d k2 with
      | none =>
        simp only [pairsOf, List.filterMap_cons, hget, Option.map_none]
        exact ih hk2 hnodup.2
      | some fv =>
        simp only [pairsOf, List.filterMap_cons, hget, Option.map_some]
        simp only [PyDict.get, if_neg heq]
        exact ih hk2 hnodup.2

theorem fsPack_eq {κ V : Type} [DecidableEq κ] (nb : List (κ × Handler V))
    (bn : List κ) (d : List (κ × FieldVal V)) :
    fsPack nb bn d =
      bfPack (((packNonBool nb d).1 ++
          (if decide (d.length > nb.length) then (packBools bn d).1
           else List.replicate bn.length false)) ++
        [decide (d.length > nb.length),
         ((packNonBool nb d).2.1 ++
          (if decide (d.length > nb.length) then (packBools bn d).2.1
           else List.replicate bn.length false)).any id]) ++
      ((if ((packNonBool nb d).2.1 ++
          (if decide (d.length > nb.length) then (packBools bn d).2.1
           else List.replicate bn.length false)).any id then
          bfPack ((packNonBool nb d).2.1 ++
            (if decide (d.length > nb.length) then (packBools bn d).2.1
             else List.replicate bn.length false))
        else []) ++
       (List.flatten (packNonBool nb d).2.2 ++
        (if decide (d.length > nb.length) then bfPack (packBools bn d).2.2
         else []))) := by
  unfold fsPack
  dsimp only
  by_cases hB : decide (d.length > nb.length) = true
  · simp only [hB]
    by_cases hN : ((packNonBool nb d).2.1 ++ (packBools bn d).2.1).any id = true
    · simp [hN, List.flatten_append, List.flatten_cons, List.append_assoc]
    · rw [Bool.not_eq_true] at hN
      simp [hN, List.flatten_append, List.flatten_cons, List.append_assoc]
  · rw [Bool.not_eq_true] at hB
    simp only [hB]
    by_cases hN : ((packNonBool nb d).2.1 ++
        List.replicate bn.length false).any id = true
    · simp [hN, List.flatten_append, List.flatten_cons, List.append_assoc]
    · rw [Bool.not_eq_true] at hN
      simp [hN, List.flatten_append, List.flatten_cons, List.append_assoc]

theorem getD_append_pair_fst (A : List Bool) (x y d : Bool) :
    (A ++ [x, y]).getD A.length d = x := by
  rw [List.getD_eq_getElem?_getD, List.getElem?_append_right (le_refl _)]
  simp

theorem getD_append_pair_snd (A : List Bool) (x y d : Bool) :
    (A ++ [x, y]).getD (A.length + 1) d = y := by
  rw [List.getD_eq_getElem?_getD, List.getElem?_append_right (by omega)]
  simp

theorem fsUnpack_fsPack {κ V : Type} [DecidableEq κ]
    (nb : List (κ × Handler V)) (bn : List κ) (d : List (κ × FieldVal V))
    (htypedN : ∀ k h2, (k, h2) ∈ nb → ∀ b, PyDict.get d k ≠ some (FieldVal.bool b))
    (htypedB : ∀ k ∈ bn, ∀ v, PyDict.get d k ≠ some (FieldVal.val v))
    (hlaws : ∀ k h2, (k, h2) ∈ nb → HandlerLaws h2)
    (hbool : (∀ k ∈ bn, PyDict.get d k = Option.none) ∨ d.length > nb.length) :
    fsUnpack nb bn (fsPack nb bn d) =
      pairsOf (List.map Prod.fst nb) d ++ pairsOf bn d := by
  have hlenN := packNonBool_content_length nb d
  have hlenB := packBools_lengths bn d
  set rN := packNonBool nb d with hrN
  set rB := packBools bn d with hrB
  set hasBVal := decide (d.length > nb.length) with hhasBVal
  set csB : List Bool :=
    if hasBVal = true then rB.1 else List.replicate bn.length false with hcsB
  set nsB : List Bool :=
    if hasBVal = true then rB.2.1 else List.replicate bn.length false with hnsB
  set boolBytes : List Nat :=
    if hasBVal = true then bfPack rB.2.2 else [] with hboolBytes
  have hcsBlen : csB.length = bn.length := by
    rw [hcsB]
    by_cases h : hasBVal = true
    · simp [h, hlenB.1]
    · simp [h]
  have hnsBlen : nsB.length = bn.length := by
    rw [hnsB]
    by_cases h : hasBVal = true
    · simp [h, hlenB.2.1]
    · simp [h]
  set noneBits : List Bool := rN.2.1 ++ nsB with hnoneBits
  set noneSent := noneBits.any id with hnoneSent
  have hnblen : noneBits.length = nb.length + bn.length := by
    rw [hnoneBits, List.length_append, hlenN.2, hnsBlen]
  set contentBits : List Bool := (rN.1 ++ csB) ++ [hasBVal, noneSent]
    with hcontentBits
  have hAlen : (rN.1 ++ csB).length = nb.length + bn.length := by
    rw [List.length_append, hlenN.1, hcsBlen]
  have hcblen : contentBits.length = (nb.length + bn.length) + 2 := by
    rw [hcontentBits, List.length_append, hAlen]
    rfl
  have hpack : fsPack nb bn d = bfPack contentBits ++
      ((if noneSent = true then bfPack noneBits else []) ++
       (List.flatten rN.2.2 ++ boolBytes)) := by
    rw [fsPack_eq]
  -- unpack evaluation
  rw [hpack]
  unfold fsUnpack
  dsimp only
  rw [bfUnpack_bfPack _ _ _ hcblen, drop_bfSize_bfPack]
  have hgetNone : contentBits.getD (nb.length + bn.length + 1) false = noneSent := by
    rw [hcontentBits, ← hAlen]
    exact getD_append_pair_snd _ _ _ _
  have hgetBool : contentBits.getD (nb.length + bn.length) false = hasBVal := by
    rw [hcontentBits, ← hAlen]
    exact getD_append_pair_fst _ _ _ _
  rw [hgetNone, hgetBool]
  -- resolve the NoneType section
  have hnoneCase : (if noneSent = true then
      bfUnpack (nb.length + bn.length) ((if noneSent = true then
        bfPack noneBits else []) ++ (List.flatten rN.2.2 ++ boolBytes))
      else List.replicate (nb.length + bn.length) false) = noneBits ∧
      (if noneSent = true then
        List.drop (bfSize ((if noneSent = true then bfPack noneBits else []) ++
          (List.flatten rN.2.2 ++ boolBytes)))
          ((if noneSent = true then bfPack noneBits else []) ++
            (List.flatten rN.2.2 ++ boolBytes))
       else ((if noneSent = true then bfPack noneBits else []) ++
         (List.flatten rN.2.2 ++ boolBytes))) =
        List.flatten rN.2.2 ++ boolBytes := by
    by_cases hns : noneSent = true
    · simp only [hns, if_true]
      exact ⟨bfUnpack_bfPack _ _ _ hnblen, drop_bfSize_bfPack _ _⟩
    · rw [Bool.not_eq_true] at hns
      simp only [hns, Bool.false_eq_true, if_false]
      constructor
      · rw [← hnblen]
        symm
        refine List.eq_replicate_of_mem ?_
        intro b hb
        have := List.any_eq_false.mp (by rw [← hnoneSent, hns]) b hb
        simpa using this
      · rw [List.nil_append]
  rw [hnoneCase.1, hnoneCase.2]
  have hcontentBits2 : contentBits = rN.1 ++ (csB ++ [hasBVal, noneSent]) := by
    rw [hcontentBits, List.append_assoc]
  have hU1 := unpackNonBool_spec nb d boolBytes (csB ++ [hasBVal, noneSent])
    nsB htypedN hlaws
  rw [← hrN] at hU1
  rw [hcontentBits2, hU1]
  dsimp only
  by_cases hcond : bn.length ≠ 0 ∧ hasBVal = true
  · rw [if_pos hcond]
    have hboolBytes2 : boolBytes = bfPack rB.2.2 ++ [] := by
      rw [hboolBytes, if_pos hcond.2, List.append_nil]
    rw [hboolBytes2, bfUnpack_bfPack _ _ _ hlenB.2.2]
    have hcsB2 : csB = rB.1 := by rw [hcsB, if_pos hcond.2]
    have hnsB2 : nsB = rB.2.1 ++ [] := by
      rw [hnsB, if_pos hcond.2, List.append_nil]
    have hdrop1 : List.drop nb.length (rN.1 ++ (csB ++ [hasBVal, noneSent])) =
        csB ++ [hasBVal, noneSent] := by
      rw [← hlenN.1]
      exact List.drop_left _ _
    have hdrop2 : List.drop nb.length noneBits = nsB := by
      rw [hnoneBits, ← hlenN.2]
      exact List.drop_left _ _
    rw [hdrop1, hdrop2, hcsB2, hnsB2]
    have hU2 := unpackBools_spec (V := V) bn d [hasBVal, noneSent] [] htypedB
    rw [← hrB] at hU2
    rw [hU2]
  · rw [if_neg hcond]
    have hempty : pairsOf bn d = ([] : List (κ × FieldVal V)) := by
      push_neg at hcond
      by_cases hbn : bn.length = 0
      · rw [List.length_eq_zero.mp hbn]
        rfl
      · have hfalse : hasBVal ≠ true := hcond hbn
        have hnotgt : ¬ (d.length > nb.length) := by
          intro hcon
          exact hfalse (by rw [hhasBVal]; simpa using hcon)
        have habsent : ∀ k ∈ bn, PyDict.get d k = Option.none := by
          rcases hbool with hb | hb
          · exact hb
          · exact absurd hb hnotgt
        unfold pairsOf
        rw [List.filterMap_eq_nil_iff]
        intro k hk
        rw [habsent k hk]
        rfl
    rw [hempty, List.append_nil]

theorem uint8HandlerRanged_laws : HandlerLaws uint8HandlerRanged := by
  constructor
  · intro v rest
    apply Fin.ext
    simp [uint8HandlerRanged, Nat.mod_eq_of_lt v.isLt]
  · intro v rest
    rfl

/-- **C1 (amended).** FlagSerialiser round trip at the map level: for
duplicate-free declared fields (non-boolean handlers `nb`, boolean names
`bn`), a well-typed data map `d` whose keys are declared fields, handlers
satisfying the round-trip laws, and — the amendment — either no boolean
field is present in `d` or `d` holds more entries than there are
non-boolean fields (the source only emits the boolean bitfield when
`len(data) > total_none_booleans`): looking up any key after
`unpack(pack(d))` gives exactly its value in `d` (keys present match,
`None` preserved, booleans round-trip). -/
theorem flag_serialiser_round_trip {κ V : Type} [DecidableEq κ]
    (nb : List (κ × Handler V)) (bn : List κ) (d : List (κ × FieldVal V))
    (hnodup : (List.map Prod.fst nb ++ bn).Nodup)
    (hkeys : ∀ k : κ, PyDict.get d k ≠ Option.none →
      k ∈ List.map Prod.fst nb ++ bn)
    (htypedN : ∀ k h2, (k, h2) ∈ nb → ∀ b, PyDict.get d k ≠ some (FieldVal.bool b))
    (htypedB : ∀ k ∈ bn, ∀ v, PyDict.get d k ≠ some (FieldVal.val v))
    (hlaws : ∀ k h2, (k, h2) ∈ nb → HandlerLaws h2)
    (hbool : (∀ k ∈ bn, PyDict.get d k = Option.none) ∨ d.length > nb.length) :
    ∀ k : κ, PyDict.get (fsUnpack nb bn (fsPack nb bn d)) k = PyDict.get d k := by
  intro k
  rw [fsUnpack_fsPack nb bn d htypedN htypedB hlaws hbool, PyDict.get_append]
  rw [List.nodup_append] at hnodup
  by_cases hmemN : k ∈ List.map Prod.fst nb
  · rw [get_pairsOf_mem _ _ _ hmemN hnodup.1]
    cases hget : PyDict.get d k with
    | none =>
      have hnotB : k ∉ bn := hnodup.2.2 hmemN
      rw [get_pairsOf_not_mem _ _ _ hnotB]
    | some v => rfl
  · rw [get_pairsOf_not_mem _ _ _ hmemN]
    by_cases hmemB : k ∈ bn
    · rw [get_pairsOf_mem _ _ _ hmemB hnodup.2.1]
    · rw [get_pairsOf_not_mem _ _ _ hmemB]
      cases hget : PyDict.get d k with
      | none => rfl
      | some v =>
        exfalso
        have := hkeys k (by rw [hget]; exact fun hcon => Option.noConfusion hcon)
        rw [List.mem_append] at this
        rcases this with hh | hh
        · exact hmemN hh
        · exact hmemB hh

theorem flag_serialiser_round_trip_witness :
    PyDict.get (fsUnpack [((0 : Nat), uint8HandlerRanged)] [1]
      (fsPack [((0 : Nat), uint8HandlerRanged)] [1]
        [(0, FieldVal.val (37 : Fin 256)), (1, FieldVal.bool true)])) 0 =
      some (FieldVal.val (37 : Fin 256)) ∧
    PyDict.get (fsUnpack [((0 : Nat), uint8HandlerRanged)] [1]
      (fsPack [((0 : Nat), uint8HandlerRanged)] [1]
        [(0, FieldVal.val (37 : Fin 256)), (1, FieldVal.bool true)])) 1 =
      some (FieldVal.bool true) := by
  have h := flag_serialiser_round_trip [((0 : Nat), uint8HandlerRanged)] [1]
    [(0, FieldVal.val (37 : Fin 256)), (1, FieldVal.bool true)]
    (by decide)
    (by
      intro k hk
      by_cases h0 : (0 : Nat) = k
      · simp [← h0]
      · by_cases h1 : (1 : Nat) = k
        · simp [← h1]
        · exact absurd (by simp [PyDict.get, h0, h1]) hk)
    (by
      intro k h2 hmem b hcon
      simp only [List.mem_singleton, Prod.mk.injEq] at hmem
      rw [← hmem.1] at hcon
      simp [PyDict.get] at hcon)
    (by
      intro k hmem v hcon
      simp only [List.mem_singleton] at hmem
      rw [hmem] at hcon
      simp [PyDict.get] at hcon)
    (by
      intro k h2 hmem
      simp only [List.mem_singleton, Prod.mk.injEq] at hmem
      rw [hmem.2]
      exact uint8HandlerRanged_laws)
    (Or.inr (by norm_num))
  exact ⟨h 0, h 1⟩

/-- **C1, counterexample.** A data map holding a single boolean value under
a declared boolean field (one non-boolean field declared, absent from the
map) does not round-trip: `len(data) = 1` is not greater than
`total_none_booleans = 1`, so `pack` never emits the boolean bitfield and
`unpack` yields nothing at all, losing the boolean entry. -/
theorem flag_serialiser_drops_lone_boolean :
    PyDict.get ([((1 : Nat), FieldVal.bool true)] : List (Nat × FieldVal (Fin 256))) 1 =
      some (FieldVal.bool true) ∧
    fsUnpack [((0 : Nat), uint8HandlerRanged)] [1]
      (fsPack [((0 : Nat), uint8HandlerRanged)] [1] [(1, FieldVal.bool true)]) = [] := by
  constructor
  · rfl
  · have hp : fsPack [((0 : Nat), uint8HandlerRanged)] [1]
        ([(1, FieldVal.bool true)] : List (Nat × FieldVal (Fin 256))) = [4, 0] := by
      simp [fsPack, packNonBool, packBools, PyDict.get, bfPack, bytesOfBits, byteOfBits]
    rw [hp]
    decide

end FlagSerModel

